import Mathlib

/-!
Verification development for the OCR repository's scripts.

The Python sources embedded here are:
* `pdf-extraction-project/extract_fullcontent_to_excel.py` — section locator
  and five-strategy table-recovery heuristic;
* `pdf-extraction-project/csv_to_excel_converter.py` — CSV→Excel key/value
  converter (exit behaviour only);
* `Sonnet4(29-09-2025)/CSV_To_Excel.py` — CSV flattener (exit behaviour only);
* `pdf-extraction-project(29-09-2025)/complete_pdf_extractor.py` — per-page
  vision extraction with key-probing merges.

Strings are modelled through their character lists.  Python-specific string
behaviour (`str.strip`, `str.splitlines`, `re` patterns used by the scripts)
is modelled for ASCII text: the default-whitespace set is the six ASCII
whitespace characters, and `splitlines` breaks on `\n`, `\r\n` and `\r`
(Python additionally breaks on a few other control and Unicode characters;
inputs handled by these scripts are assumed free of those, and theorems that
re-split joined text carry an explicit no-line-break hypothesis).
-/

namespace OCR

/-- Python `str.strip()` default whitespace (ASCII part). -/
def pyIsSpace (c : Char) : Bool :=
  c = ' ' || c = '\t' || c = '\n' || c = '\r' || c = '\x0b' || c = '\x0c'

/-- Line-break characters recognised by the `splitlines` model. -/
def isBreakChar (c : Char) : Bool :=
  c = '\n' || c = '\r'

/-- Word character of the `re` module's `\w` (ASCII part). -/
def isWordChar (c : Char) : Bool :=
  c.isAlphanum || c = '_'

/-- ASCII lower-casing, modelling `str.lower()` on the header strings. -/
def pyLowerChar (c : Char) : Char :=
  if 'A' ≤ c && c ≤ 'Z' then Char.ofNat (c.toNat + 32) else c

/-- ASCII upper-casing, used to model case-insensitive regex search. -/
def pyUpperChar (c : Char) : Char :=
  if 'a' ≤ c && c ≤ 'z' then Char.ofNat (c.toNat - 32) else c

/-- Character class of the header regex `[A-Z0-9 \-_/&]`. -/
def headerCharOK (c : Char) : Bool :=
  ('A' ≤ c && c ≤ 'Z') || ('0' ≤ c && c ≤ '9') ||
    c = ' ' || c = '-' || c = '_' || c = '/' || c = '&'

/-- Character class of the key-value regex `[\w \-()\/]` (ASCII `\w`). -/
def kvClassChar (c : Char) : Bool :=
  c.isAlphanum || c = '_' || c = ' ' || c = '-' || c = '(' || c = ')' || c = '/'

/-- Drop leading default whitespace (`str.lstrip()`). -/
def dropWS (l : List Char) : List Char :=
  l.dropWhile pyIsSpace

/-- Drop trailing default whitespace (`str.rstrip()`). -/
def dropTrailWS (l : List Char) : List Char :=
  (l.reverse.dropWhile pyIsSpace).reverse

/-- Python `str.strip()` on a character list. -/
def stripL (l : List Char) : List Char :=
  dropTrailWS (dropWS l)

/-- Python `str.strip()` returning a `String`. -/
def pyStrip (s : String) : String :=
  ⟨stripL s.data⟩

/-- Python `str.strip(chars)` for an explicit character set. -/
def stripCharsL (cs : List Char) (l : List Char) : List Char :=
  ((l.dropWhile (cs.contains ·)).reverse.dropWhile (cs.contains ·)).reverse

/-- Number of occurrences of a character (Python `str.count` for 1-char needle). -/
def countChar (c : Char) (l : List Char) : Nat :=
  (l.filter (· = c)).length

/-- Split a character list at every occurrence of `sep` (like `str.split(sep)`). -/
def splitChar (sep : Char) (l : List Char) : List (List Char) :=
  l.foldr (fun c acc =>
    match acc with
    | [] => if c = sep then [[], []] else [[c]]
    | a :: rest => if c = sep then [] :: a :: rest else (c :: a) :: rest) [[]]

/-- Join lines with a single `\n` (Python `"\n".join`). -/
def joinNl : List (List Char) → List Char
  | [] => []
  | [l] => l
  | l :: l' :: rest => l ++ '\n' :: joinNl (l' :: rest)

/-- Worker for the `str.splitlines()` model: breaks at `\n`, `\r\n`, `\r`,
with no trailing empty piece for a trailing line break. -/
def slAux (acc : List Char) : List Char → List (List Char)
  | [] => [acc.reverse]
  | '\r' :: '\n' :: [] => [acc.reverse]
  | '\r' :: '\n' :: c :: rest => acc.reverse :: slAux [] (c :: rest)
  | '\r' :: [] => [acc.reverse]
  | '\r' :: c :: rest =>
    if c = '\n' then [acc.reverse]
    else acc.reverse :: slAux [] (c :: rest)
  | '\n' :: [] => [acc.reverse]
  | '\n' :: c :: rest => acc.reverse :: slAux [] (c :: rest)
  | c :: rest => slAux (c :: acc) rest

/-- Python `str.splitlines()` on a character list (`[]` for the empty string). -/
def pySplitlinesL (l : List Char) : List (List Char) :=
  match l with
  | [] => []
  | _ => slAux [] l

/-- Python `str.splitlines()` producing `String` lines. -/
def pySplitlines (s : String) : List String :=
  (pySplitlinesL s.data).map (fun l => ⟨l⟩)

/-- Lower-case a whole string (`str.lower()`). -/
def pyLower (s : String) : String :=
  ⟨s.data.map pyLowerChar⟩

/-- True when the line is blank after stripping (`not ln.strip()`). -/
def isBlankLine (s : String) : Bool :=
  stripL s.data = []

/-- List-level prefix test. -/
def startsWithL (p l : List Char) : Bool :=
  p.isPrefixOf l

/-! ### Regex models -/

/-- Helper for the key-value regex: after at least one class character has
been consumed, succeed exactly when the class run is followed by `:`. -/
def kvAfterClass : List Char → Bool
  | [] => false
  | c :: rest => if c = ':' then true else kvClassChar c && kvAfterClass rest

/-- Model of `re.match(r"^\s*[\w \-()\/]+:\s*", ln)` viewed as a Boolean:
skip leading whitespace (a space may instead start the class run, mirroring
regex backtracking), then one or more class characters ending at a colon.
The trailing `\s*` of the pattern always matches and is omitted. -/
def kvStartB : List Char → Bool
  | [] => false
  | c :: rest => (kvClassChar c && kvAfterClass rest) || (pyIsSpace c && kvStartB rest)

/-- The comprehension filter of `extract_key_value_block`:
`":" in ln and re.match(r"^\s*[\w \-()\/]+:\s*", ln)`. -/
def kvLineB (s : String) : Bool :=
  s.data.contains ':' && kvStartB s.data

/-- Drop one optional leading occurrence of `c` (regex `c?` where the
following pattern cannot consume `c`). -/
def dropOpt (c : Char) (l : List Char) : List Char :=
  match l with
  | [] => []
  | x :: rest => if x = c then rest else l

/-- The optional final group `(\|.+)?$` of the separator pattern, applied
to what remains after the dashes and following whitespace. -/
def sepTail (t : List Char) : Bool :=
  match t with
  | [] => false
  | c :: r => c = '|' && !r.isEmpty

/-- Model of `re.search(r"^\s*\|?\s*:?-{2,}\s*(\|.+)?$", line)`: the anchors
make this a full match.  Each greedy step is forced because the follow-up
pattern cannot consume the same characters, so the match is deterministic. -/
def sepB (l : List Char) : Bool :=
  let t1 := l.dropWhile pyIsSpace
  let t2 := dropOpt '|' t1
  let t3 := t2.dropWhile pyIsSpace
  let t4 := dropOpt ':' t3
  let dashes := t4.takeWhile (· = '-')
  let t5 := t4.dropWhile (· = '-')
  let t6 := t5.dropWhile pyIsSpace
  decide (2 ≤ dashes.length) && (t6.isEmpty || sepTail t6)

/-- One position of the word-boundary search: the keyword occurs here with a
non-word character (or the string edge) on each side. -/
def wordMatchAt (kw : List Char) (prev : Option Char) (l : List Char) : Bool :=
  (match prev with
   | none => true
   | some p => !isWordChar p) &&
  kw.isPrefixOf l &&
  (match l.drop kw.length with
   | [] => true
   | c :: _ => !isWordChar c)

/-- Scan of `re.search(r"\b(kw1|kw2|...)\b", s)` over all start positions. -/
def searchWordAux (kws : List (List Char)) (prev : Option Char) : List Char → Bool
  | [] => false
  | c :: rest =>
    kws.any (fun kw => wordMatchAt kw prev (c :: rest)) || searchWordAux kws (some c) rest

/-- Model of the word-boundary keyword search, case-sensitive variant. -/
def searchWordAny (kws : List String) (s : String) : Bool :=
  searchWordAux (kws.map String.data) none s.data

/-- Case-insensitive variant, modelling the `re.I` searches. -/
def searchWordAnyCI (kws : List String) (s : String) : Bool :=
  searchWordAny (kws.map (fun k => ⟨k.data.map pyUpperChar⟩)) ⟨s.data.map pyUpperChar⟩

/-- Model of `re.fullmatch(r"[A-Z0-9 \-_/&]{2,120}", s)`. -/
def fullmatchHeader (s : String) : Bool :=
  s.data.all headerCharOK && decide (2 ≤ s.data.length) && decide (s.data.length ≤ 120)

/-- `any(ch.isalpha() for ch in s)` (ASCII model; under `fullmatchHeader`
only `A`-`Z` can be alphabetic). -/
def hasAlpha (s : String) : Bool :=
  s.data.any Char.isAlpha

/-! ### extract_fullcontent_to_excel.py: section locator -/

/-- The module constant `FULL_CONTENT_KEYS`. -/
def FULL_CONTENT_KEYS : List String :=
  ["COMPLETE EXTRACTED CONTENT", "FULL CONTENT", "FULL_CONTENT", "FULL_CONTENTS",
   "COMPLETE EXTRACTED CONTENTS", "COMPLETE CONTENT", "FULL_CONTENT_SECTION",
   "full_content"]

/-- Test of the first loop of `find_full_content_section`:
`ln.strip().lower() in [k.lower() for k in FULL_CONTENT_KEYS]`. -/
def exactHeaderLine (ln : String) : Bool :=
  FULL_CONTENT_KEYS.any (fun k => pyLower (pyStrip ln) == pyLower k)

/-- Keyword set of the heuristic header search in `detect_section_headers`. -/
def kwHeur : List String :=
  ["CONTENT", "COMPLETE", "PAGE", "EXTRACTED", "FULL"]

/-- Heuristic header test of `detect_section_headers`: all-caps line within
the length bound, containing a letter and one of the keywords. -/
def heurHeaderLine (ln : String) : Bool :=
  let s := pyStrip ln
  !isBlankLine ln && fullmatchHeader s && hasAlpha s && searchWordAny kwHeur s

/-- `detect_section_headers(lines)`: for each non-blank line, one entry per
exactly-matching key (carrying the key), then one entry for the heuristic
match (carrying the stripped line). -/
def detect_section_headers_from (i : Nat) : List String → List (Nat × String)
  | [] => []
  | ln :: rest =>
    let s := pyStrip ln
    (if isBlankLine ln then []
     else
       (FULL_CONTENT_KEYS.filter (fun k => pyLower s == pyLower k)).map (fun k => (i, k)) ++
         (if fullmatchHeader s && hasAlpha s && searchWordAny kwHeur s then [(i, s)] else []))
      ++ detect_section_headers_from (i + 1) rest

/-- `detect_section_headers` of the source, over a line list. -/
def detect_section_headers (lines : List String) : List (Nat × String) :=
  detect_section_headers_from 0 lines

/-- Keyword set that terminates a section in `extract_section`. -/
def kwNextSection : List String :=
  ["METADATA", "SUMMARY", "WELL", "STANDARDS", "SAMPLES", "PAGE CONTENT",
   "COMPLETE", "FULL", "SETTINGS"]

/-- Test for a line that ends the current section in `extract_section`. -/
def isNextSectionHeader (ln : String) : Bool :=
  let s := pyStrip ln
  !isBlankLine ln && fullmatchHeader s && searchWordAny kwNextSection s

/-- Index of the first element satisfying `p` (0-based), or `none`. -/
def firstIdxP (p : String → Bool) : List String → Option Nat
  | [] => none
  | l :: rest => if p l then some 0 else (firstIdxP p rest).map (· + 1)

/-- Drop trailing elements satisfying `p`. -/
def dropTrailWhile {α : Type} (p : α → Bool) (ls : List α) : List α :=
  (ls.reverse.dropWhile p).reverse

/-- Trim of leading and trailing blank lines at the end of `extract_section`. -/
def trimBlankEdges (ls : List String) : List String :=
  dropTrailWhile isBlankLine (ls.dropWhile isBlankLine)

/-- `extract_section(lines, header_idx)`: the lines strictly after the header
and strictly before the first following next-section header (or end of file),
with leading/trailing blank lines removed. -/
def extract_section (lines : List String) (header_idx : Nat) : List String :=
  let tl := lines.drop (header_idx + 1)
  let sec :=
    match firstIdxP isNextSectionHeader tl with
    | some k => tl.take k
    | none => tl
  trimBlankEdges sec

/-- Index of the first line passing the exact full-content key test. -/
def firstExactIdx (lines : List String) : Option Nat :=
  firstIdxP exactHeaderLine lines

/-- Keyword sets of the preference pass in `find_full_content_section`
(case-insensitive searches). -/
def kwComplete : List String := ["COMPLETE", "EXTRACTED", "FULL"]

/-- Second keyword set of the preference pass (the source writes the
alternative `CONTENTs`; under `re.I` it is the same as `CONTENTS`). -/
def kwContent : List String := ["CONTENT", "CONTENTs", "PAGE"]

/-- `find_full_content_section(raw_text)`: exact key match first, then the
preferred heuristic header, then the first heuristic header, else `none`.
Returns the extracted section, the header index and the header text. -/
def find_full_content_section (raw : String) : Option (List String × Nat × String) :=
  let lines := pySplitlines raw
  match firstExactIdx lines with
  | some i => some (extract_section lines i, i, lines.getD i "")
  | none =>
    let detected := detect_section_headers lines
    match detected.find? (fun p =>
        searchWordAnyCI kwComplete p.2 && searchWordAnyCI kwContent p.2) with
    | some p => some (extract_section lines p.1, p.1, p.2)
    | none =>
      match detected with
      | p :: _ => some (extract_section lines p.1, p.1, p.2)
      | [] => none

/-! ### extract_fullcontent_to_excel.py: strategy detectors -/

/-- First condition of the markdown scan:
`lines[i].strip().startswith("|") and "|" in lines[i].strip()[1:]`. -/
def pipeStartLine (ln : String) : Bool :=
  let s := stripL ln.data
  startsWithL ['|'] s && (s.drop 1).contains '|'

/-- Continuation condition of the markdown block:
`lines[j].strip().startswith("|")`. -/
def pipeContLine (ln : String) : Bool :=
  startsWithL ['|'] (stripL ln.data)

/-- `extract_markdown_pipe_table(lines)`: first adjacent pair of a pipe line
and a dashed separator line starts the block, which extends over following
pipe-starting lines.  The source returns the `"\n".join` of the block; since
the block has at least two lines the joined string is always truthy, so the
block's line list is returned here. -/
def extract_markdown_pipe_table : List String → Option (List String)
  | [] => none
  | [_] => none
  | l1 :: l2 :: rest =>
    if pipeStartLine l1 && sepB l2.data then
      some (l1 :: l2 :: rest.takeWhile pipeContLine)
    else
      extract_markdown_pipe_table (l2 :: rest)

/-- Line test of `extract_csv_like_block`: `ln.count(",") >= 1`. -/
def commaLine (ln : String) : Bool :=
  decide (1 ≤ countChar ',' ln.data)

/-- Accumulation loop of `extract_csv_like_block`: maximal runs of
comma-containing lines, kept when at least two lines long. -/
def csvBlocksAux (block : List String) (blocks : List (List String)) :
    List String → List (List String)
  | [] => if 2 ≤ block.length then blocks ++ [block] else blocks
  | ln :: rest =>
    if commaLine ln then csvBlocksAux (block ++ [ln]) blocks rest
    else csvBlocksAux [] (if 2 ≤ block.length then blocks ++ [block] else blocks) rest

/-- Python `max(blocks, key=len)`: the first block of maximal length. -/
def firstMaxBlock : List (List String) → Option (List String) :=
  List.foldl (fun acc b =>
    match acc with
    | none => some b
    | some a => if a.length < b.length then some b else acc) none

/-- `extract_csv_like_block(lines)` (returning the block's line list; the
source joins it with newlines before handing it to `pd.read_csv`). -/
def extract_csv_like_block (lines : List String) : Option (List String) :=
  firstMaxBlock (csvBlocksAux [] [] lines)

/-- `extract_key_value_block(lines)`: the lines passing the key-value filter
when there are at least two of them. -/
def extract_key_value_block (lines : List String) : Option (List String) :=
  let kvl := lines.filter kvLineB
  if 2 ≤ kvl.length then some kvl else none

/-! ### pandas model

`pd.read_csv` (python engine) is modelled as far as the script depends on
it.  The python engine tokenizes through the csv module (`csvScan` below,
the state machine of CPython's `_csv.c` for the default dialect), drops
blank records (`skip_blank_lines=True`), takes the first record as the
header (empty names become `Unnamed: i`), promotes the `k ≥ 1` extra
leading fields of the first data record to an implicit index
(`PythonParser._get_index_name`, case 1), raises `ParserError` when a
record exceeds `header + k` fields, NaN-pads shorter records, and reads
empty fields as NaN.  Not modelled, as no theorem depends on them:
`NA`-string detection, dtype inference (all cells stay strings), and
duplicate-column-name mangling. -/

/-- Result tables: ordered named columns and rows of optional (NaN-able)
string cells. -/
structure DataFrame where
  cols : List String
  rows : List (List (Option String))
deriving DecidableEq, Repr

/-- States of the csv module's tokenizer (CPython `_csv.c`): at the start
of a record, at the start of a field, inside an unquoted field, inside a
quoted field, and just after a quote character inside a quoted field. -/
inductive CsvMode
  | recordStart
  | fieldStart
  | inField
  | inQuoted
  | quoteInQuoted
deriving DecidableEq, Repr

/-- The csv module's tokenizer for the default dialect (`quotechar='"'`,
`doublequote=True`, `strict=False`, no escape character), as
`pd.read_csv(engine="python")` uses it: fields split at `sep`, records at
a line break; a quote at the start of a field opens a quoted field, inside
which separators and line breaks are literal; a doubled quote stands for a
literal quote; after a closing quote, further text up to a separator is
appended to the field (non-strict); an unterminated quote at the end of
input keeps the rest as one field; a blank line is an empty record;
`skipInit` (`skipinitialspace=True`) skips spaces at the start of a field,
before the separator test, as in `_csv.c`.  Every string reaching this
reader in the script is a `"\n".join` of `str.splitlines()` output, so
only `'\n'` ends a record here. -/
def csvScan (sep : Char) (skipInit : Bool) :
    CsvMode → List Char → List (List Char) → List (List (List Char)) →
    List Char → List (List (List Char))
  | .recordStart, _, _, acc, [] => acc
  | .fieldStart, field, rec, acc, [] => acc ++ [rec ++ [field]]
  | .inField, field, rec, acc, [] => acc ++ [rec ++ [field]]
  | .inQuoted, field, rec, acc, [] => acc ++ [rec ++ [field]]
  | .quoteInQuoted, field, rec, acc, [] => acc ++ [rec ++ [field]]
  | .recordStart, _, _, acc, c :: rest =>
    if c = '\n' then csvScan sep skipInit .recordStart [] [] (acc ++ [[]]) rest
    else if c = '"' then csvScan sep skipInit .inQuoted [] [] acc rest
    else if c = ' ' && skipInit then csvScan sep skipInit .fieldStart [] [] acc rest
    else if c = sep then csvScan sep skipInit .fieldStart [] [[]] acc rest
    else csvScan sep skipInit .inField [c] [] acc rest
  | .fieldStart, _, rec, acc, c :: rest =>
    if c = '\n' then csvScan sep skipInit .recordStart [] [] (acc ++ [rec ++ [[]]]) rest
    else if c = '"' then csvScan sep skipInit .inQuoted [] rec acc rest
    else if c = ' ' && skipInit then csvScan sep skipInit .fieldStart [] rec acc rest
    else if c = sep then csvScan sep skipInit .fieldStart [] (rec ++ [[]]) acc rest
    else csvScan sep skipInit .inField [c] rec acc rest
  | .inField, field, rec, acc, c :: rest =>
    if c = '\n' then
      csvScan sep skipInit .recordStart [] [] (acc ++ [rec ++ [field]]) rest
    else if c = sep then csvScan sep skipInit .fieldStart [] (rec ++ [field]) acc rest
    else csvScan sep skipInit .inField (field ++ [c]) rec acc rest
  | .inQuoted, field, rec, acc, c :: rest =>
    if c = '"' then csvScan sep skipInit .quoteInQuoted field rec acc rest
    else csvScan sep skipInit .inQuoted (field ++ [c]) rec acc rest
  | .quoteInQuoted, field, rec, acc, c :: rest =>
    if c = '"' then csvScan sep skipInit .inQuoted (field ++ ['"']) rec acc rest
    else if c = sep then csvScan sep skipInit .fieldStart [] (rec ++ [field]) acc rest
    else if c = '\n' then
      csvScan sep skipInit .recordStart [] [] (acc ++ [rec ++ [field]]) rest
    else csvScan sep skipInit .inField (field ++ [c]) rec acc rest

/-- Column names of the header row: empty fields become `Unnamed: i`. -/
def nameCols (fields : List (List Char)) : List String :=
  fields.enum.map (fun p =>
    match p.2 with
    | [] => "Unnamed: " ++ toString p.1
    | l => ⟨l⟩)

/-- A data cell: the empty field is NaN. -/
def toCell (f : List Char) : Option String :=
  match f with
  | [] => none
  | l => some ⟨l⟩

/-- `pd.read_csv(io.StringIO(text), sep=sep, engine="python")` with optional
`skipinitialspace`: csv-module records with blank records dropped; first
record is the header; the first data record's `k ≥ 1` extra leading fields
become an implicit index (dropped from the data); a record longer than
`header + k` raises `ParserError`; shorter records are NaN-padded. -/
def pdReadCsv (sep : Char) (skipInit : Bool) (text : List Char) :
    Except String DataFrame :=
  match (csvScan sep skipInit .recordStart [] [] [] text).filter
      (fun r => !r.isEmpty) with
  | [] => .error "EmptyDataError"
  | hf :: raw =>
    let ncols := hf.length
    let k :=
      match raw with
      | r :: _ => r.length - ncols
      | [] => 0
    if raw.any (fun r => ncols + k < r.length) then .error "ParserError"
    else
      .ok ⟨nameCols hf,
        raw.map (fun r =>
          let d := r.drop k
          d.map toCell ++ List.replicate (ncols - d.length) none)⟩

/-- What the csv reader makes of one quote- and break-free line starting at
a field boundary: the line split at the separator, every field losing its
leading spaces when `skipinitialspace` is on. -/
def lineFields (sep : Char) (skipInit : Bool) (l : List Char) : List (List Char) :=
  if skipInit then (splitChar sep l).map (List.dropWhile (· = ' '))
  else splitChar sep l

/-- What the csv reader makes of one quote- and break-free line entered
mid-field with `f` already accumulated: the first piece extends `f` (no
space skipping there), later fields are as in `lineFields`. -/
def contFields (sep : Char) (skipInit : Bool) (f l : List Char) :
    List (List Char) :=
  match splitChar sep l with
  | [] => [f]
  | p :: ps =>
    (f ++ p) :: (if skipInit then ps.map (List.dropWhile (· = ' ')) else ps)

/-- Column filtering, name stripping and `dropna(how="all")` applied to the
frame in the `markdown_pipe` branch. -/
def mdCleanup (df : DataFrame) : DataFrame :=
  let keep := (List.range df.cols.length).filter (fun j =>
    !startsWithL "Unnamed".data (df.cols.getD j "").data ||
      df.rows.any (fun r => (r.getD j none).isSome))
  let cols := keep.map (fun j => pyStrip (df.cols.getD j ""))
  let rows := (df.rows.map (fun r => keep.map (fun j => r.getD j none))).filter
    (fun r => r.any Option.isSome)
  ⟨cols, rows⟩

/-- Cell list of one markdown line in the manual fallback:
`[cell.strip() for cell in re.split(r"\s*\|\s*", r.strip("| \t")) if cell.strip()!=""]`
(splitting at pipes and stripping each cell gives the same cells as the
whitespace-absorbing split pattern). -/
def pipeCells (ln : String) : List String :=
  ((splitChar '|' (stripCharsL ['|', ' ', '\t'] ln.data)).map (fun c => stripL c)).filterMap
    (fun c => match c with | [] => none | l => some (⟨l⟩ : String))

/-- Join with a single `|` (Python `"|".join`). -/
def joinPipe : List (List Char) → List Char
  | [] => []
  | [l] => l
  | l :: l' :: rest => l ++ '|' :: joinPipe (l' :: rest)

/-- Manual markdown fallback body (inside `except`), for `rows = r0::r1::rrest`:
`rows[1][0]` raises IndexError on an empty second row; a dashed second row is
skipped; `data_rows[0]` raises IndexError when no data rows remain;
`pd.DataFrame(data_rows, columns=header[:len(data_rows[0])])` raises when the
column count differs from the width of the ragged data (shorter rows are
padded with NaN). -/
def mdManualCore (r0 r1 : List String) (rrest : List (List String)) :
    Except String (Option DataFrame × String) :=
  match r1 with
  | [] => .error "IndexError"
  | c0 :: _ =>
    let dashed := startsWithL ['-', '-'] c0.data ||
      startsWithL ['-', '-'] (joinPipe (r1.map String.data))
    let dataRows := if dashed then rrest else r1 :: rrest
    match dataRows with
    | [] => .error "IndexError"
    | d0 :: _ =>
      let cols := r0.take d0.length
      let width := dataRows.foldl (fun m r => max m r.length) 0
      if cols.length ≠ width then .error "ValueError"
      else .ok (some ⟨cols,
        dataRows.map (fun r =>
          r.map some ++ List.replicate (cols.length - r.length) none)⟩,
        "markdown_pipe_manual")

/-- Model of the paragraph split `re.split(r"\n\s*\n", text)`: a maximal
whitespace run containing at least two newlines is a boundary; the run's
characters before its first newline stay with the left piece, those after
its last newline start the right piece. -/
def paraSplitAux (acc wsbuf : List Char) : List Char → List (List Char)
  | [] =>
    if 2 ≤ countChar '\n' wsbuf then
      [acc ++ wsbuf.takeWhile (· ≠ '\n'),
       (wsbuf.reverse.takeWhile (· ≠ '\n')).reverse]
    else [acc ++ wsbuf]
  | c :: rest =>
    if pyIsSpace c then paraSplitAux acc (wsbuf ++ [c]) rest
    else if 2 ≤ countChar '\n' wsbuf then
      (acc ++ wsbuf.takeWhile (· ≠ '\n')) ::
        paraSplitAux ((wsbuf.reverse.takeWhile (· ≠ '\n')).reverse ++ [c]) [] rest
    else paraSplitAux (acc ++ wsbuf ++ [c]) [] rest

/-- The paragraph list of `parse_table_from_section`:
`[p.strip() for p in re.split(r"\n\s*\n", text) if p.strip()]`. -/
def parasOf (text : List Char) : List (List Char) :=
  ((paraSplitAux [] [] text).map stripL).filter (· ≠ [])

/-- One key-value row: `ln.split(":", 1)` with both parts stripped. -/
def kvRow (ln : String) : List (Option String) :=
  let before := ln.data.takeWhile (· ≠ ':')
  let after :=
    match ln.data.dropWhile (· ≠ ':') with
    | [] => []
    | _ :: t => t
  [some ⟨stripL before⟩, some ⟨stripL after⟩]

/-- Stages 4-5 of `parse_table_from_section`: paragraph split, then the raw
single-cell fallback. -/
def paraStage (lines : List String) : Except String (Option DataFrame × String) :=
  let text := stripL (joinNl (lines.map String.data))
  let paras := parasOf text
  if 1 < paras.length then
    .ok (some ⟨["Paragraph"], paras.map (fun p => [some ⟨p⟩])⟩, "paragraphs")
  else
    .ok (some ⟨["FullContent"], [[some ⟨text⟩]]⟩, "raw_single")

/-- Stage 3 of `parse_table_from_section`: the key-value block. -/
def kvStage (lines : List String) : Except String (Option DataFrame × String) :=
  match extract_key_value_block lines with
  | some kvl => .ok (some ⟨["Field", "Value"], kvl.map kvRow⟩, "key_value")
  | none => paraStage lines

/-- Stage 2 of `parse_table_from_section`: the comma block, read twice
(plain then relaxed); both failures fall through silently. -/
def csvStage (lines : List String) : Except String (Option DataFrame × String) :=
  match extract_csv_like_block lines with
  | some block =>
    match pdReadCsv ',' false (joinNl (block.map String.data)) with
    | .ok df => .ok (some df, "csv_block")
    | .error _ =>
      match pdReadCsv ',' true (joinNl (block.map String.data)) with
      | .ok df => .ok (some df, "csv_block_relaxed")
      | .error _ => kvStage lines
  | none => kvStage lines

/-- `parse_table_from_section(section_lines)`.  The value is `Except`-shaped:
`.error` models an uncaught Python exception escaping the function. -/
def parse_table_from_section (lines : List String) :
    Except String (Option DataFrame × String) :=
  if lines.isEmpty then .ok (none, "empty")
  else
    match extract_markdown_pipe_table lines with
    | some block =>
      match pdReadCsv '|' true (joinNl (block.map String.data)) with
      | .ok df => .ok (some (mdCleanup df), "markdown_pipe")
      | .error _ =>
        match block.map pipeCells with
        | r0 :: r1 :: rrest => mdManualCore r0 r1 rrest
        | _ => csvStage lines
    | none => csvStage lines

/-! ### extract_fullcontent_to_excel.py: main and exit codes

File input/output and spreadsheet writing are assumed to succeed; an
uncaught Python exception makes the interpreter exit with status 1. -/

/-- Outcome of `main(csv_path)` in `extract_fullcontent_to_excel.py`. -/
inductive MainOutcome where
  | missingFile : MainOutcome
  | fallbackRaw (df : DataFrame) : MainOutcome
  | parsed (r : Except String (Option DataFrame × String)) : MainOutcome
deriving Repr

/-- `main(csv_path)`: exit 2 for a missing file; with no full-content
section, write the whole raw text (truncated to 100000 characters) as a
single-cell frame; otherwise parse the located section. -/
def script1_main (inputExists : Bool) (raw : String) : MainOutcome :=
  if !inputExists then .missingFile
  else
    match find_full_content_section raw with
    | none => .fallbackRaw ⟨["FullContent_Raw"], [[some ⟨raw.data.take 100000⟩]]⟩
    | some (sec, _, _) => .parsed (parse_table_from_section sec)

/-- Process exit status of `python extract_fullcontent_to_excel.py`:
1 for a missing positional argument (`sys.exit(1)` in the `__main__` guard),
2 for a missing input file (`main` returns 2), 0 otherwise, unless the
parser raises, in which case the interpreter exits with 1. -/
def script1_exit (argv : List String) (inputExists : Bool) (raw : String) : Nat :=
  if argv.length < 2 then 1
  else
    match script1_main inputExists raw with
    | .missingFile => 2
    | .fallbackRaw _ => 0
    | .parsed (.ok _) => 0
    | .parsed (.error _) => 1

/-- Process exit status of `python csv_to_excel_converter.py`: the script
takes no argument (paths are hardcoded); `csv_to_excel_key_value` prints a
message and plainly returns when the input file is missing, and the script
never calls `sys.exit`, so the status is 0 either way. -/
def script2_exit (inputExists : Bool) : Nat :=
  if inputExists then 0 else 0

/-- Process exit status of `python CSV_To_Excel.py`: all code is at module
level with a hardcoded path; a missing input file makes `pd.read_csv` raise
`FileNotFoundError`, which is uncaught, so the interpreter exits with 1. -/
def script3_exit (inputExists : Bool) : Nat :=
  if inputExists then 0 else 1

/-! ### complete_pdf_extractor.py

The remote model call is an oracle `call : Nat → Except String String`
(page index to response text or raised error text), and `json.loads` is an
oracle `jloads : String → Option Json` (`none` models the parse failure
caught by the inner `try`).  The claims hold for every choice of oracles. -/

/-- JSON values, as far as the extractor inspects them. -/
inductive Json where
  | null : Json
  | bool (b : Bool) : Json
  | num (n : Int) : Json
  | str (s : String) : Json
  | arr (l : List Json) : Json
  | obj (l : List (String × Json)) : Json

/-- First value bound to a key in an association list (Python `dict`
lookup; JSON objects decoded by Python keep one value per key). -/
def jlookup (kvs : List (String × Json)) (k : String) : Option Json :=
  match kvs with
  | [] => none
  | p :: rest => if p.1 == k then some p.2 else jlookup rest k

/-- One per-page record appended to `results["pages"]`. -/
structure PageRecord where
  page_number : Nat
  text_content : String
  structured_data : Json

/-- `analyze_page_detailed`: on success the response text with its
best-effort JSON parse (`{"raw_content": content}` when parsing fails); on
any raised error, the error record with empty structured data. -/
def analyze_page_detailed (jloads : String → Option Json)
    (call : Except String String) (page_num : Nat) : PageRecord :=
  match call with
  | .ok content =>
    { page_number := page_num
      text_content := content
      structured_data :=
        match jloads content with
        | some j => j
        | none => .obj [("raw_content", .str content)] }
  | .error e =>
    { page_number := page_num
      text_content := "Error analyzing page " ++ toString page_num ++ ": " ++ e
      structured_data := .obj [] }

/-- The page loop of `extract_pdf_with_vision`: pages are processed in
order, one record per page, page numbers starting at 1. -/
def extract_pdf_pages (jloads : String → Option Json)
    (call : Nat → Except String String) (numPages : Nat) : List PageRecord :=
  (List.range numPages).map (fun i => analyze_page_detailed jloads (call i) (i + 1))

/-- Python iteration over a JSON value, as `list.extend` consumes it:
arrays yield elements, dicts yield their keys, strings yield 1-character
strings, and other values raise `TypeError`. -/
def pyIterate (v : Json) : Except String (List Json) :=
  match v with
  | .arr l => .ok l
  | .obj kvs => .ok (kvs.map (fun p => .str p.1))
  | .str s => .ok (s.data.map (fun c => .str ⟨[c]⟩))
  | _ => .error "TypeError"

/-- The value a `dict` must have for `dict.update`; other values raise
(`dict.update` also accepts iterables of pairs, which JSON never produces). -/
def asObj (v : Json) : Except String (List (String × Json)) :=
  match v with
  | .obj kvs => .ok kvs
  | _ => .error "TypeError"

/-- Python `d.update(n)`: keys already in `d` keep their position and get
the value from `n`; new keys of `n` are appended in order. -/
def dictUpdate (d n : List (String × Json)) : List (String × Json) :=
  d.map (fun p =>
    match jlookup n p.1 with
    | some v => (p.1, v)
    | none => p) ++
  n.filter (fun q => (jlookup d q.1).isNone)

/-- Key-probing step shared by `extract_well_plate_data` and
`extract_standards_table`: extend the accumulator with the value under the
first present probed key.  A page whose `structured_data` is not a dict is
not modelled (`'key' in page['structured_data']` would then be a membership
or substring test); theorems assume dict-shaped pages. -/
def probeExtend (k1 k2 : String) (acc : List Json) (p : PageRecord) :
    Except String (List Json) :=
  match p.structured_data with
  | .obj kvs =>
    match jlookup kvs k1 with
    | some v => (pyIterate v).map (acc ++ ·)
    | none =>
      match jlookup kvs k2 with
      | some v => (pyIterate v).map (acc ++ ·)
      | none => .ok acc
  | _ => .error "unmodelled: structured_data is not a dict"

/-- `extract_well_plate_data`: probe `well_plate_data` then `wells`. -/
def extract_well_plate_data (pages : List PageRecord) : Except String (List Json) :=
  pages.foldlM (probeExtend "well_plate_data" "wells") []

/-- `extract_standards_table`: probe `standards_table` then `standards`. -/
def extract_standards_table (pages : List PageRecord) : Except String (List Json) :=
  pages.foldlM (probeExtend "standards_table" "standards") []

/-- `extract_settings`: per page, `results['settings'].update(...)` with the
value under `settings`, else under `instrument_settings`, else nothing. -/
def extract_settings (pages : List PageRecord) :
    Except String (List (String × Json)) :=
  pages.foldlM (fun acc p =>
    match p.structured_data with
    | .obj kvs =>
      match jlookup kvs "settings" with
      | some v => (asObj v).map (dictUpdate acc ·)
      | none =>
        match jlookup kvs "instrument_settings" with
        | some v => (asObj v).map (dictUpdate acc ·)
        | none => .ok acc
    | _ => .error "unmodelled: structured_data is not a dict") []

/-! ### Helper definitions used only by the statements and proofs -/

/-- Lines free of the model's line-break characters (true of every line
produced by `splitlines`). -/
def NoBreakLine (s : String) : Bool :=
  s.data.all (fun c => !isBreakChar c)

/-- Apply `f` to the last element only. -/
def mapLast (f : α → α) : List α → List α
  | [] => []
  | [a] => [f a]
  | a :: b :: rest => a :: mapLast f (b :: rest)

/-- Apply `f` to the head element only. -/
def mapHead (f : α → α) : List α → List α
  | [] => []
  | a :: r => f a :: r

/-- Blank test at the character-list level (`blankL s.data = isBlankLine s`). -/
def blankL (l : List Char) : Bool :=
  stripL l = []

/-- Character-list form of `eCore`: leading-whitespace trim of the first
line and trailing-whitespace trim of the last. -/
def eCoreL : List (List Char) → List (List Char)
  | [] => []
  | [a] => [stripL a]
  | a :: b :: rest => dropWS a :: mapLast dropTrailWS (b :: rest)

/-- Trim of the whitespace a `"\n".join` followed by `str.strip()` removes,
applied to the kept lines: the first loses leading whitespace, the last
loses trailing whitespace. -/
def eCore : List String → List String
  | [] => []
  | [a] => [pyStrip a]
  | a :: b :: rest =>
    (⟨dropWS a.data⟩ : String) :: mapLast (fun l => (⟨dropTrailWS l.data⟩ : String)) (b :: rest)

/-- Effect of `"\n".join`, `str.strip()` and `str.splitlines()` on a line
list: blank edge lines disappear, the first kept line loses leading
whitespace and the last kept line loses trailing whitespace. -/
def edgeTrim (ls : List String) : List String :=
  eCore (trimBlankEdges ls)

/-- A line of `edgeTrim` is the matching original line, or that line with a
leading-whitespace, trailing-whitespace, or two-sided trim. -/
def trimVariant (x y : String) : Prop :=
  y = x ∨ y = (⟨dropWS x.data⟩ : String) ∨ y = (⟨dropTrailWS x.data⟩ : String) ∨ y = pyStrip x

/-- Adjacent pairs of a list. -/
def adjPairs {α : Type} (ls : List α) : List (α × α) :=
  ls.zip ls.tail

/-- Field count of a line under the comma tokenizer (independent of
`skipinitialspace`). -/
def fieldLen (s : String) : Nat :=
  (splitChar ',' s.data).length

/-- What the comma-block machinery observes of a line: whether it holds a
comma, and its comma field count.  `Rcsv x y` says the trimmed line `y`
observes the same as the original `x`. -/
def Rcsv (x y : String) : Prop :=
  commaLine y = commaLine x ∧ fieldLen y = fieldLen x

/-- Relation between the comma-block results of an original and a trimmed
line list. -/
def csvOptRel (o o' : Option (List String)) : Prop :=
  (o = none ∧ o' = none) ∨
    ∃ b b', o = some b ∧ o' = some b' ∧ List.Forall₂ Rcsv b b'

/-- Shape check for the aggregation claims: the page's structured data is a
dict and the probed value that would be read (first key preferred) is a
JSON array. -/
def pageArrShaped (k1 k2 : String) (p : PageRecord) : Bool :=
  match p.structured_data with
  | .obj kvs =>
    match jlookup kvs k1 with
    | some (.arr _) => true
    | some _ => false
    | none =>
      match jlookup kvs k2 with
      | some (.arr _) => true
      | some _ => false
      | none => true
  | _ => false

/-- Shape check for the settings claim: the page's structured data is a dict
and the probed settings value (the `settings` key preferred) is a JSON
object. -/
def pageSettingsShaped (p : PageRecord) : Bool :=
  match p.structured_data with
  | .obj kvs =>
    match jlookup kvs "settings" with
    | some (.obj _) => true
    | some _ => false
    | none =>
      match jlookup kvs "instrument_settings" with
      | some (.obj _) => true
      | some _ => false
      | none => true
  | _ => false

/-- Written from the spec's words, for comparison with the extractor: the
page's contribution is "that page's value under the first probed key name
when present, else under the second when present, else nothing". -/
def probedList (k1 k2 : String) (p : PageRecord) : List Json :=
  match p.structured_data with
  | .obj kvs =>
    (match jlookup kvs k1 with
     | some (.arr l) => l
     | some _ => []
     | none =>
       match jlookup kvs k2 with
       | some (.arr l) => l
       | some _ => []
       | none => [])
  | _ => []

/-- Written from the claim's words: the settings dict a single page
supplies, with `settings` preferred and `instrument_settings` consulted
only when `settings` is absent. -/
def chosenSettings (p : PageRecord) : List (String × Json) :=
  match p.structured_data with
  | .obj kvs =>
    (match jlookup kvs "settings" with
     | some (.obj o) => o
     | some _ => []
     | none =>
       match jlookup kvs "instrument_settings" with
       | some (.obj o) => o
       | some _ => []
       | none => [])
  | _ => []

/-- Written from the claim's words: the value for key `k` supplied by the
latest page that supplies it (later pages overwrite earlier ones). -/
def lastSettingOf (pages : List PageRecord) (k : String) : Option Json :=
  pages.foldl (fun cur p =>
    match jlookup (chosenSettings p) k with
    | some v => some v
    | none => cur) none

/-! ## Theorems -/

/-- When the manual markdown fallback returns rather than raising, its
method tag is `markdown_pipe_manual`. -/
theorem mdManualCore_method (r0 r1 : List String) (rrest : List (List String))
    (df : Option DataFrame) (m : String)
    (h : mdManualCore r0 r1 rrest = .ok (df, m)) : m = "markdown_pipe_manual" := by
  unfold mdManualCore at h
  split at h
  · exact Except.noConfusion h
  · dsimp only at h
    repeat' split at h
    all_goals
      first
        | exact Except.noConfusion h
        | exact (congrArg Prod.snd (Except.ok.inj h)).symm

/-- C4: a section of at least two `key: value` lines, with no markdown pipe
table and no comma run, yields exactly the two columns `Field` and `Value`
with one row per line, in input order. -/
theorem parse_key_value_section (lines : List String)
    (hlen : 2 ≤ lines.length)
    (hkv : ∀ l ∈ lines, kvLineB l = true)
    (hmd : extract_markdown_pipe_table lines = none)
    (hcsv : extract_csv_like_block lines = none) :
    parse_table_from_section lines =
      .ok (some ⟨["Field", "Value"], lines.map kvRow⟩, "key_value") := by
  have hne : lines.isEmpty = false := by
    cases lines with
    | nil => simp at hlen
    | cons x xs => rfl
  rw [parse_table_from_section, hne]
  simp only [Bool.false_eq_true, if_false, hmd]
  rw [csvStage, hcsv]
  rw [kvStage, extract_key_value_block]
  have hf : lines.filter kvLineB = lines := List.filter_eq_self.mpr hkv
  rw [hf, if_pos hlen]

/-- C4 witness: a concrete two-line key-value section. -/
theorem parse_key_value_section_witness :
    parse_table_from_section ["Name: Alice", "Age: 30"] =
      .ok (some ⟨["Field", "Value"],
        [[some "Name", some "Alice"], [some "Age", some "30"]]⟩, "key_value") :=
  parse_key_value_section ["Name: Alice", "Age: 30"] (by decide)
    (by decide) rfl rfl

/-- C6 counterexample: `csv_to_excel_converter.py` exits with 0, not 2, when
its input file is missing (the function prints and returns, and the script
never calls `sys.exit`); `CSV_To_Excel.py` exits with 1, not 2, in that case
(uncaught `FileNotFoundError`). -/
theorem script_exit_codes_counterexample :
    script2_exit false = 0 ∧ script3_exit false = 1 ∧
    (0 : Nat) ≠ 2 ∧ (1 : Nat) ≠ 2 :=
  ⟨rfl, rfl, by decide, by decide⟩

/-- C6 (amended): only `extract_fullcontent_to_excel.py` has the claimed
exit-code contract — 1 on a missing positional argument, 2 on a missing
input file, 0 on success (both the no-section fallback and a successful
parse).  `csv_to_excel_converter.py` always exits 0, even when its input is
missing; `CSV_To_Excel.py` takes no argument and exits 1 via an uncaught
exception when its hardcoded input is missing. -/
theorem script_exit_codes (argv : List String) (raw : String) :
    (argv.length < 2 → ∀ ex : Bool, script1_exit argv ex raw = 1) ∧
    (2 ≤ argv.length → script1_exit argv false raw = 2) ∧
    (2 ≤ argv.length → find_full_content_section raw = none →
      script1_exit argv true raw = 0) ∧
    (2 ≤ argv.length → ∀ sec i h r, find_full_content_section raw = some (sec, i, h) →
      parse_table_from_section sec = .ok r → script1_exit argv true raw = 0) ∧
    (∀ ex : Bool, script2_exit ex = 0) ∧
    script3_exit true = 0 ∧ script3_exit false = 1 := by
  refine ⟨?_, ?_, ?_, ?_, ?_, rfl, rfl⟩
  · intro hlt ex
    simp [script1_exit, hlt]
  · intro hge
    simp [script1_exit, Nat.not_lt.mpr hge, script1_main]
  · intro hge hn
    simp [script1_exit, Nat.not_lt.mpr hge, script1_main, hn]
  · intro hge sec i h r hf hp
    simp [script1_exit, Nat.not_lt.mpr hge, script1_main, hf, hp]
  · intro ex
    cases ex <;> rfl

/-- C6 witness: the amended exit codes at concrete invocations. -/
theorem script_exit_codes_witness :
    script1_exit ["prog"] true "" = 1 ∧
    script1_exit ["prog", "f.csv"] false "" = 2 ∧
    script1_exit ["prog", "f.csv"] true "plain" = 0 ∧
    script1_exit ["prog", "f.csv"] true "FULL CONTENT\nA: 1\nB: 2" = 0 ∧
    script2_exit false = 0 :=
  ⟨(script_exit_codes ["prog"] "").1 (by decide) true,
   (script_exit_codes ["prog", "f.csv"] "").2.1 (by decide),
   (script_exit_codes ["prog", "f.csv"] "plain").2.2.1 (by decide) rfl,
   (script_exit_codes ["prog", "f.csv"] "FULL CONTENT\nA: 1\nB: 2").2.2.2.1 (by decide)
     ["A: 1", "B: 2"] 0 "FULL CONTENT"
     (some ⟨["Field", "Value"], [[some "A", some "1"], [some "B", some "2"]]⟩, "key_value")
     rfl rfl,
   (script_exit_codes [] "").2.2.2.2.1 false⟩

/-- C10: when the section locator finds nothing, `main` writes a single-cell
`FullContent_Raw` table holding the first 100000 characters of the raw
text; longer input is silently truncated, and input within the bound is
kept whole. -/
theorem main_fallback_truncates (raw : String)
    (h : find_full_content_section raw = none) :
    script1_main true raw =
      .fallbackRaw ⟨["FullContent_Raw"], [[some ⟨raw.data.take 100000⟩]]⟩ ∧
    (raw.data.take 100000).length ≤ 100000 ∧
    (raw.data.length ≤ 100000 → (⟨raw.data.take 100000⟩ : String) = raw) := by
  refine ⟨?_, ?_, fun hle => ?_⟩
  · simp [script1_main, h]
  · simp
  · rw [List.take_of_length_le hle]

/-- Indexing a mapped range. -/
theorem getD_range_map {α : Type} (f : Nat → α) (n j : Nat) (d : α) (h : j < n) :
    ((List.range n).map f).getD j d = f j := by
  rw [List.getD_eq_getElem?_getD, List.getElem?_map, List.getElem?_range h]
  rfl

/-- C7: a raised remote call (or raised response processing) on one page is
caught there: the page record carries the error string naming the page and
empty structured data, every page still yields exactly one record, and
every other page's record is computed from its own call alone — a failure
on one page never aborts the document. -/
theorem page_error_is_local (jloads : String → Option Json)
    (call : Nat → Except String String) (n i : Nat) (e : String)
    (hi : i < n) (he : call i = .error e) :
    (extract_pdf_pages jloads call n).length = n ∧
    (extract_pdf_pages jloads call n).getD i ⟨0, "", .null⟩ =
      ⟨i + 1, "Error analyzing page " ++ toString (i + 1) ++ ": " ++ e, .obj []⟩ ∧
    (∀ j, j < n → (extract_pdf_pages jloads call n).getD j ⟨0, "", .null⟩ =
      analyze_page_detailed jloads (call j) (j + 1)) := by
  refine ⟨by simp [extract_pdf_pages], ?_, fun j hj => ?_⟩
  · rw [extract_pdf_pages, getD_range_map _ _ _ _ hi, he]
    rfl
  · rw [extract_pdf_pages, getD_range_map _ _ _ _ hj]

/-- C7 witness: with page 2 of 3 failing, the document still yields three
records, the failing page carries the error text, and the others are
unaffected. -/
theorem page_error_is_local_witness :
    ((extract_pdf_pages (fun _ => none)
        (fun i => if i == 1 then .error "boom" else .ok "x") 3).length = 3 ∧
     (extract_pdf_pages (fun _ => none)
        (fun i => if i == 1 then .error "boom" else .ok "x") 3).getD 1 ⟨0, "", .null⟩ =
       ⟨2, "Error analyzing page " ++ toString 2 ++ ": " ++ "boom", .obj []⟩ ∧
     (∀ j, j < 3 → (extract_pdf_pages (fun _ => none)
        (fun i => if i == 1 then .error "boom" else .ok "x") 3).getD j ⟨0, "", .null⟩ =
       analyze_page_detailed (fun _ => none)
         (if j == 1 then .error "boom" else .ok "x") (j + 1))) :=
  page_error_is_local (fun _ => none)
    (fun i => if i == 1 then .error "boom" else .ok "x") 3 1 "boom"
    (by decide) rfl

/-- Accumulator form of the aggregation fold: under the shape hypothesis the
fold succeeds and appends, page by page, the value under the first present
probed key. -/
theorem probe_fold (k1 k2 : String) :
    ∀ (pages : List PageRecord) (acc : List Json),
      pages.all (pageArrShaped k1 k2) = true →
      pages.foldlM (probeExtend k1 k2) acc =
        .ok (acc ++ pages.flatMap (probedList k1 k2)) := by
  intro pages
  induction pages with
  | nil =>
    intro acc _
    simp only [List.foldlM_nil, List.flatMap_nil, List.append_nil]
    rfl
  | cons p tl ih =>
    intro acc hall
    rw [List.all_cons, Bool.and_eq_true] at hall
    rw [List.foldlM_cons]
    have hstep : probeExtend k1 k2 acc p = .ok (acc ++ probedList k1 k2 p) := by
      have hp := hall.1
      rcases hsd : p.structured_data with _ | _ | _ | _ | _ | kvs <;>
        simp only [pageArrShaped, hsd] at hp <;>
        try exact Bool.noConfusion hp
      rcases h1 : jlookup kvs k1 with _ | v1
      · rcases h2 : jlookup kvs k2 with _ | v2
        · simp [probeExtend, probedList, hsd, h1, h2]
        · simp only [h1, h2] at hp
          rcases v2 with _ | _ | _ | _ | l | _ <;> try exact Bool.noConfusion hp
          simp [probeExtend, probedList, hsd, h1, h2, pyIterate, Except.map]
      · simp only [h1] at hp
        rcases v1 with _ | _ | _ | _ | l | _ <;> try exact Bool.noConfusion hp
        simp [probeExtend, probedList, hsd, h1, pyIterate, Except.map]
    rw [hstep]
    show List.foldlM (probeExtend k1 k2) (acc ++ probedList k1 k2 p) tl = _
    rw [ih _ hall.2]
    simp [List.append_assoc]

/-- C8: the aggregated well-plate list (and likewise the standards list)
equals the in-order concatenation, over pages, of the page's value under
the first probed key when present, else the second, else nothing; encounter
order is kept and nothing is deduplicated. -/
theorem aggregate_lists_concat (pages : List PageRecord)
    (hw : pages.all (pageArrShaped "well_plate_data" "wells") = true)
    (hs : pages.all (pageArrShaped "standards_table" "standards") = true) :
    extract_well_plate_data pages =
      .ok (pages.flatMap (probedList "well_plate_data" "wells")) ∧
    extract_standards_table pages =
      .ok (pages.flatMap (probedList "standards_table" "standards")) := by
  constructor
  · rw [extract_well_plate_data, probe_fold _ _ pages [] hw]
    rw [List.nil_append]
  · rw [extract_standards_table, probe_fold _ _ pages [] hs]
    rw [List.nil_append]

/-- C8 witness: three concrete pages; the first prefers `well_plate_data`
over `wells`, the duplicate `A1` across pages is kept, and order is the
page order. -/
theorem aggregate_lists_concat_witness :
    extract_well_plate_data
      [⟨1, "", .obj [("well_plate_data", .arr [.str "A1"]), ("wells", .arr [.str "IGNORED"])]⟩,
       ⟨2, "", .obj [("wells", .arr [.str "A1"])]⟩,
       ⟨3, "", .obj [("standards_table", .arr [.num 5])]⟩] =
      .ok [.str "A1", .str "A1"] ∧
    extract_standards_table
      [⟨1, "", .obj [("well_plate_data", .arr [.str "A1"]), ("wells", .arr [.str "IGNORED"])]⟩,
       ⟨2, "", .obj [("wells", .arr [.str "A1"])]⟩,
       ⟨3, "", .obj [("standards_table", .arr [.num 5])]⟩] =
      .ok [.num 5] :=
  aggregate_lists_concat
    [⟨1, "", .obj [("well_plate_data", .arr [.str "A1"]), ("wells", .arr [.str "IGNORED"])]⟩,
     ⟨2, "", .obj [("wells", .arr [.str "A1"])]⟩,
     ⟨3, "", .obj [("standards_table", .arr [.num 5])]⟩] rfl rfl

theorem jlookup_append (a b : List (String × Json)) (k : String) :
    jlookup (a ++ b) k =
      match jlookup a k with
      | some v => some v
      | none => jlookup b k := by
  induction a with
  | nil => simp [jlookup]
  | cons p tl ih =>
    by_cases h : (p.1 == k) = true
    · simp [jlookup, h]
    · simp [jlookup, h, ih]

theorem jlookup_map_update (d n : List (String × Json)) (k : String) :
    jlookup (d.map (fun p =>
        match jlookup n p.1 with
        | some v => (p.1, v)
        | none => p)) k =
      match jlookup d k with
      | none => none
      | some w =>
        match jlookup n k with
        | some v => some v
        | none => some w := by
  induction d with
  | nil => simp [jlookup]
  | cons p tl ih =>
    by_cases h : (p.1 == k) = true
    · have hk : p.1 = k := eq_of_beq h
      subst hk
      rcases hn : jlookup n p.1 with _ | v <;>
        simp [jlookup, hn, ih]
    · rcases hn : jlookup n p.1 with _ | v <;>
        simp [jlookup, h, hn, ih]

theorem jlookup_filter_isNone (d n : List (String × Json)) (k : String)
    (hd : jlookup d k = none) :
    jlookup (n.filter (fun q => (jlookup d q.1).isNone)) k = jlookup n k := by
  induction n with
  | nil => rfl
  | cons q tl ih =>
    by_cases h : (q.1 == k) = true
    · have hk : q.1 = k := eq_of_beq h
      rw [List.filter_cons, hk, hd]
      simp [jlookup, h]
    · rw [List.filter_cons]
      by_cases hkeep : (jlookup d q.1).isNone = true
      · simp only [hkeep, if_true, jlookup, h]
        exact ih
      · simp only [hkeep, Bool.false_eq_true, if_false, jlookup, h]
        rw [ih]

/-- Lookup through `dict.update`: the updating dict wins, the original is
the fallback. -/
theorem jlookup_dictUpdate (d n : List (String × Json)) (k : String) :
    jlookup (dictUpdate d n) k =
      match jlookup n k with
      | some v => some v
      | none => jlookup d k := by
  rw [dictUpdate, jlookup_append, jlookup_map_update]
  rcases hd : jlookup d k with _ | w
  · rw [jlookup_filter_isNone d n k hd]
    rcases jlookup n k with _ | v <;> simp [hd]
  · rcases jlookup n k with _ | v <;> simp

/-- Lookup through the settings fold: the latest page supplying the key
wins, with the fallback read from the accumulator. -/
theorem settings_lookup_foldl (k : String) :
    ∀ (pages : List PageRecord) (acc : List (String × Json)),
      jlookup (pages.foldl (fun d p => dictUpdate d (chosenSettings p)) acc) k =
        pages.foldl (fun cur p =>
          match jlookup (chosenSettings p) k with
          | some v => some v
          | none => cur) (jlookup acc k) := by
  intro pages
  induction pages with
  | nil => intro acc; rfl
  | cons p tl ih =>
    intro acc
    rw [List.foldl_cons, List.foldl_cons, ih, jlookup_dictUpdate]

/-- The settings fold succeeds under the shape hypothesis and is the plain
fold of `dict.update` over the per-page chosen settings dict. -/
theorem settings_fold_ok :
    ∀ (pages : List PageRecord) (acc : List (String × Json)),
      pages.all pageSettingsShaped = true →
      pages.foldlM (fun acc p =>
        match p.structured_data with
        | .obj kvs =>
          match jlookup kvs "settings" with
          | some v => (asObj v).map (dictUpdate acc ·)
          | none =>
            match jlookup kvs "instrument_settings" with
            | some v => (asObj v).map (dictUpdate acc ·)
            | none => .ok acc
        | _ => .error "unmodelled: structured_data is not a dict") acc =
        .ok (pages.foldl (fun d p => dictUpdate d (chosenSettings p)) acc) := by
  intro pages
  induction pages with
  | nil => intro acc _; rfl
  | cons p tl ih =>
    intro acc hall
    rw [List.all_cons, Bool.and_eq_true] at hall
    have hp := hall.1
    rw [List.foldlM_cons, List.foldl_cons]
    have hstep : (match p.structured_data with
        | .obj kvs =>
          match jlookup kvs "settings" with
          | some v => (asObj v).map (dictUpdate acc ·)
          | none =>
            match jlookup kvs "instrument_settings" with
            | some v => (asObj v).map (dictUpdate acc ·)
            | none => .ok acc
        | _ => .error "unmodelled: structured_data is not a dict") =
        .ok (dictUpdate acc (chosenSettings p)) := by
      rcases hsd : p.structured_data with _ | _ | _ | _ | _ | kvs <;>
        simp only [pageSettingsShaped, hsd] at hp <;>
        try exact Bool.noConfusion hp
      rcases h1 : jlookup kvs "settings" with _ | v1
      · rcases h2 : jlookup kvs "instrument_settings" with _ | v2
        · simp [chosenSettings, hsd, h1, h2, dictUpdate, jlookup]
        · simp only [h1, h2] at hp
          rcases v2 with _ | _ | _ | _ | _ | o <;> try exact Bool.noConfusion hp
          simp [chosenSettings, hsd, h1, h2, asObj, Except.map]
      · simp only [h1] at hp
        rcases v1 with _ | _ | _ | _ | _ | o <;> try exact Bool.noConfusion hp
        simp [chosenSettings, hsd, h1, asObj, Except.map]
    rw [hstep]
    exact ih _ hall.2

/-- C9: the settings aggregate has dictionary-update semantics — the final
value of each key is the one from the latest page supplying it, where the
dict a page supplies is read from `settings` when present and from
`instrument_settings` only otherwise. -/
theorem settings_update_semantics (pages : List PageRecord)
    (h : pages.all pageSettingsShaped = true) :
    ∃ S, extract_settings pages = .ok S ∧
      ∀ k, jlookup S k = lastSettingOf pages k := by
  refine ⟨pages.foldl (fun d p => dictUpdate d (chosenSettings p)) [], ?_, fun k => ?_⟩
  · rw [extract_settings]
    exact settings_fold_ok pages [] h
  · rw [settings_lookup_foldl, lastSettingOf]
    rfl

/-- C9 witness: three concrete pages; the `settings` dict of the last page
overwrites key `a` from earlier pages (including an `instrument_settings`
page), while key `b` survives, and `instrument_settings` is ignored on the
page that also has `settings`. -/
theorem settings_update_semantics_witness :
    ∃ S, extract_settings
      [⟨1, "", .obj [("settings", .obj [("a", .num 1), ("b", .num 2)])]⟩,
       ⟨2, "", .obj [("instrument_settings", .obj [("a", .num 99)])]⟩,
       ⟨3, "", .obj [("settings", .obj [("a", .num 3)]),
                     ("instrument_settings", .obj [("a", .num 77)])]⟩] = .ok S ∧
      ∀ k, jlookup S k = lastSettingOf
        [⟨1, "", .obj [("settings", .obj [("a", .num 1), ("b", .num 2)])]⟩,
         ⟨2, "", .obj [("instrument_settings", .obj [("a", .num 99)])]⟩,
         ⟨3, "", .obj [("settings", .obj [("a", .num 3)]),
                       ("instrument_settings", .obj [("a", .num 77)])]⟩] k :=
  settings_update_semantics
    [⟨1, "", .obj [("settings", .obj [("a", .num 1), ("b", .num 2)])]⟩,
     ⟨2, "", .obj [("instrument_settings", .obj [("a", .num 99)])]⟩,
     ⟨3, "", .obj [("settings", .obj [("a", .num 3)]),
                   ("instrument_settings", .obj [("a", .num 77)])]⟩] rfl

theorem firstIdxP_eq_none (p : String → Bool) (ls : List String)
    (h : ∀ l ∈ ls, p l = false) : firstIdxP p ls = none := by
  induction ls with
  | nil => rfl
  | cons l tl ih =>
    rw [firstIdxP, h l (List.mem_cons_self l tl)]
    simp only [Bool.false_eq_true, if_false]
    rw [ih (fun x hx => h x (List.mem_cons_of_mem l hx))]
    rfl

theorem firstIdxP_eq_some (p : String → Bool) :
    ∀ (ls : List String) (i : Nat), i < ls.length →
      p (ls.getD i "") = true →
      (∀ k, k < i → p (ls.getD k "") = false) →
      firstIdxP p ls = some i := by
  intro ls
  induction ls with
  | nil => intro i hi; simp at hi
  | cons l tl ih =>
    intro i hi hp hprev
    cases i with
    | zero =>
      rw [firstIdxP]
      rw [List.getD_cons_zero] at hp
      rw [hp]
      simp
    | succ i =>
      have h0 : p l = false := by
        have := hprev 0 (Nat.succ_pos i)
        rwa [List.getD_cons_zero] at this
      rw [firstIdxP, h0]
      simp only [Bool.false_eq_true, if_false]
      rw [ih i (by simpa using Nat.lt_of_succ_lt_succ hi)
        (by rwa [List.getD_cons_succ] at hp)
        (fun k hk => by
          have := hprev (k + 1) (Nat.succ_lt_succ hk)
          rwa [List.getD_cons_succ] at this)]
      rfl

theorem detect_headers_nil (ls : List String)
    (h : ∀ ln ∈ ls, exactHeaderLine ln = false ∧ heurHeaderLine ln = false) :
    ∀ i, detect_section_headers_from i ls = [] := by
  induction ls with
  | nil => intro i; rfl
  | cons ln tl ih =>
    intro i
    rw [detect_section_headers_from]
    have hx := (h ln (List.mem_cons_self ln tl)).1
    have hh := (h ln (List.mem_cons_self ln tl)).2
    have htl := ih (fun x hx => h x (List.mem_cons_of_mem ln hx))
    rw [htl (i + 1), List.append_nil]
    by_cases hb : isBlankLine ln = true
    · simp [hb]
    · rw [exactHeaderLine] at hx
      have hfilter : FULL_CONTENT_KEYS.filter
          (fun k => pyLower (pyStrip ln) == pyLower k) = [] := by
        rw [List.filter_eq_nil_iff]
        intro k hk
        have := List.any_eq_false.mp hx k hk
        simpa using this
      have hb' : isBlankLine ln = false := by simpa using hb
      rw [heurHeaderLine, hb'] at hh
      simp only [Bool.not_false, Bool.true_and] at hh
      simp [hb', hfilter, hh]

/-- For indexing after `drop`. -/
theorem getD_drop (ls : List String) (m t : Nat) (d : String) :
    (ls.drop m).getD t d = ls.getD (m + t) d := by
  rw [List.getD_eq_getElem?_getD, List.getD_eq_getElem?_getD, List.getElem?_drop]

/-- C3: with no full-content header of either kind, the locator returns the
"not found" outcome; with a first exact key match at line `i` followed by a
first next-section header at line `j` (for instance a header-like line
containing `METADATA`), the section is exactly the lines strictly between
`i` and `j`, stripped of leading and trailing blank lines. -/
theorem find_full_content_section_spec :
    (∀ raw : String,
      (∀ ln ∈ pySplitlines raw, exactHeaderLine ln = false ∧ heurHeaderLine ln = false) →
      find_full_content_section raw = none) ∧
    (∀ (raw : String) (i j : Nat),
      i < (pySplitlines raw).length →
      exactHeaderLine ((pySplitlines raw).getD i "") = true →
      (∀ k, k < i → exactHeaderLine ((pySplitlines raw).getD k "") = false) →
      i < j → j < (pySplitlines raw).length →
      isNextSectionHeader ((pySplitlines raw).getD j "") = true →
      searchWordAny ["METADATA"] (pyStrip ((pySplitlines raw).getD j "")) = true →
      (∀ k, k < j → i < k →
        isNextSectionHeader ((pySplitlines raw).getD k "") = false) →
      find_full_content_section raw =
        some (trimBlankEdges (((pySplitlines raw).drop (i + 1)).take (j - (i + 1))),
          i, (pySplitlines raw).getD i "")) := by
  constructor
  · intro raw h
    rw [find_full_content_section, firstExactIdx,
      firstIdxP_eq_none exactHeaderLine _ (fun l hl => (h l hl).1),
      detect_section_headers, detect_headers_nil _ h 0]
    rfl
  · intro raw i j hi hex hprev hij hj hterm hmeta hbetween
    rw [find_full_content_section, firstExactIdx,
      firstIdxP_eq_some exactHeaderLine _ i hi hex hprev]
    have hnext : firstIdxP isNextSectionHeader ((pySplitlines raw).drop (i + 1)) =
        some (j - (i + 1)) := by
      apply firstIdxP_eq_some
      · rw [List.length_drop]
        omega
      · rw [getD_drop]
        have : i + 1 + (j - (i + 1)) = j := by omega
        rwa [this]
      · intro k hk
        rw [getD_drop]
        exact hbetween (i + 1 + k) (by omega) (by omega)
    simp only [extract_section, hnext]

/-- C3 witness: no header at all yields `none`; an exact `FULL CONTENT`
header followed by a `METADATA` header yields exactly the stripped lines
between them. -/
theorem find_full_content_section_spec_witness :
    find_full_content_section "nothing here\njust text" = none ∧
    find_full_content_section "FULL CONTENT\n\nA: 1\nB: 2\n\nMETADATA\nx" =
      some (trimBlankEdges (((pySplitlines
          "FULL CONTENT\n\nA: 1\nB: 2\n\nMETADATA\nx").drop 1).take 4),
        0, (pySplitlines "FULL CONTENT\n\nA: 1\nB: 2\n\nMETADATA\nx").getD 0 "") :=
  ⟨find_full_content_section_spec.1 "nothing here\njust text" (by decide),
   find_full_content_section_spec.2 "FULL CONTENT\n\nA: 1\nB: 2\n\nMETADATA\nx"
     0 5 (by decide) (by decide) (fun k hk => absurd hk (Nat.not_lt_zero k))
     (by decide) (by decide) (by decide) (by decide)
     (fun k hk h0k => by
       interval_cases k <;> first | omega | decide)⟩

/-! ### Whitespace and strip lemmas -/

theorem dropWhile_idem {α : Type} (p : α → Bool) (l : List α) :
    (l.dropWhile p).dropWhile p = l.dropWhile p := by
  induction l with
  | nil => rfl
  | cons a t ih =>
    by_cases h : p a = true
    · simp [List.dropWhile_cons, h, ih]
    · simp [List.dropWhile_cons, h]

theorem dropWhile_head_false {α : Type} (p : α → Bool) :
    ∀ (l : List α) (c : α) (r : List α), l.dropWhile p = c :: r → p c = false := by
  intro l
  induction l with
  | nil => intro c r h; cases h
  | cons a t ih =>
    intro c r h
    by_cases hp : p a = true
    · rw [List.dropWhile_cons, if_pos hp] at h
      exact ih c r h
    · rw [List.dropWhile_cons, if_neg hp] at h
      cases h
      simpa using hp

theorem dropWhile_of_head_false {α : Type} (p : α → Bool) (c : α) (r : List α)
    (h : p c = false) : (c :: r).dropWhile p = c :: r := by
  rw [List.dropWhile_cons, h]
  simp

/-- Splitting off the trailing whitespace: `l = dropTrailWS l ++ ws`. -/
theorem dropTrailWS_append_eq (l : List Char) :
    dropTrailWS l ++ (l.reverse.takeWhile pyIsSpace).reverse = l := by
  rw [dropTrailWS, ← List.reverse_append, List.takeWhile_append_dropWhile,
    List.reverse_reverse]

theorem dropTrail_cons {α : Type} [DecidableEq α] (p : α → Bool) (x : α) (xs : List α) :
    dropTrailWhile p (x :: xs) =
      if dropTrailWhile p xs = [] then (if p x then [] else [x])
      else x :: dropTrailWhile p xs := by
  rw [dropTrailWhile, List.reverse_cons, List.dropWhile_append]
  by_cases h : (xs.reverse.dropWhile p) = []
  · rw [dropTrailWhile, h]
    simp only [List.isEmpty_nil, if_true, List.reverse_nil]
    by_cases hp : p x = true
    · simp [List.dropWhile_cons, hp]
    · simp [List.dropWhile_cons, hp]
  · have hne : (xs.reverse.dropWhile p).isEmpty = false := by
      rcases he : xs.reverse.dropWhile p with _ | ⟨a, r⟩
      · exact absurd he h
      · rfl
    rw [hne]
    simp only [Bool.false_eq_true, if_false, List.reverse_append]
    rw [dropTrailWhile]
    rw [if_neg (by simpa [dropTrailWhile, List.reverse_eq_nil_iff] using h)]
    simp [dropTrailWhile]

theorem dropTrail_cons_of_neg {α : Type} [DecidableEq α] (p : α → Bool) (x : α)
    (xs : List α) (h : p x = false) :
    dropTrailWhile p (x :: xs) = x :: dropTrailWhile p xs := by
  rw [dropTrail_cons]
  by_cases h0 : dropTrailWhile p xs = [] <;> simp [h0, h]

theorem dropTrail_eq_nil_iff {α : Type} (p : α → Bool) (l : List α) :
    dropTrailWhile p l = [] ↔ ∀ c ∈ l, p c = true := by
  rw [dropTrailWhile, List.reverse_eq_nil_iff, List.dropWhile_eq_nil_iff]
  constructor
  · intro h c hc
    exact h c (List.mem_reverse.mpr hc)
  · intro h c hc
    exact h c (List.mem_reverse.mp hc)

theorem dropTrail_idem {α : Type} (p : α → Bool) (l : List α) :
    dropTrailWhile p (dropTrailWhile p l) = dropTrailWhile p l := by
  rw [dropTrailWhile, dropTrailWhile, List.reverse_reverse, dropWhile_idem]

/-- `dropTrailWS` is `dropTrailWhile` of the whitespace test. -/
theorem dropTrailWS_eq (l : List Char) : dropTrailWS l = dropTrailWhile pyIsSpace l :=
  rfl

theorem blankL_iff (l : List Char) :
    blankL l = true ↔ ∀ c ∈ l, pyIsSpace c = true := by
  rw [blankL, decide_eq_true_eq, stripL, dropTrailWS_eq, dropTrail_eq_nil_iff]
  constructor
  · intro h c hc
    by_cases hw : pyIsSpace c = true
    · exact hw
    · exfalso
      have hmem : c ∈ dropWS l := by
        rw [dropWS]
        have hsplit := List.takeWhile_append_dropWhile pyIsSpace l
        rcases List.mem_append.mp (hsplit ▸ hc) with h1 | h1
        · exact absurd (List.mem_takeWhile_imp h1) hw
        · exact h1
      exact hw (h c hmem)
  · intro h c hc
    exact h c (List.Sublist.subset (List.dropWhile_sublist pyIsSpace) hc)

theorem dropWS_eq_nil_of_all (l : List Char) (h : ∀ c ∈ l, pyIsSpace c = true) :
    dropWS l = [] :=
  List.dropWhile_eq_nil_iff.mpr h

/-- Commuting the two one-sided trims. -/
theorem dropWS_dropTrailWS (l : List Char) :
    dropWS (dropTrailWS l) = dropTrailWS (dropWS l) := by
  induction l with
  | nil => rfl
  | cons c t ih =>
    by_cases hw : pyIsSpace c = true
    · by_cases h0 : dropTrailWhile pyIsSpace t = []
      · have ht : ∀ x ∈ t, pyIsSpace x = true := (dropTrail_eq_nil_iff _ _).mp h0
        have hall : ∀ x ∈ c :: t, pyIsSpace x = true := by
          intro x hx
          rcases List.mem_cons.mp hx with h | h
          · exact h ▸ hw
          · exact ht x h
        have h1 : dropTrailWS (c :: t) = [] := by
          rw [dropTrailWS_eq]
          exact (dropTrail_eq_nil_iff _ _).mpr hall
        have h2 : dropWS (c :: t) = [] := dropWS_eq_nil_of_all _ hall
        rw [h1, h2]
        rfl
      · have h1 : dropTrailWS (c :: t) = c :: dropTrailWhile pyIsSpace t := by
          rw [dropTrailWS_eq, dropTrail_cons, if_neg h0]
        rw [h1]
        have h2 : dropWS (c :: dropTrailWhile pyIsSpace t) =
            dropWS (dropTrailWhile pyIsSpace t) := by
          rw [dropWS, List.dropWhile_cons, if_pos hw]
          rfl
        rw [h2, ← dropTrailWS_eq, ih]
        have h3 : dropWS (c :: t) = dropWS t := by
          rw [dropWS, List.dropWhile_cons, if_pos hw]
          rfl
        rw [h3]
    · have hw' : pyIsSpace c = false := by simpa using hw
      have h1 : dropTrailWS (c :: t) = c :: dropTrailWhile pyIsSpace t := by
        rw [dropTrailWS_eq, dropTrail_cons_of_neg _ _ _ hw']
      have h2 : dropWS (c :: t) = c :: t := by
        rw [dropWS, dropWhile_of_head_false _ _ _ hw']
      rw [h1, h2, h1]
      rw [dropWS, dropWhile_of_head_false _ _ _ hw']

theorem stripL_dropWS (l : List Char) : stripL (dropWS l) = stripL l := by
  rw [stripL, stripL, dropWS, dropWS, dropWhile_idem]

theorem stripL_dropTrailWS (l : List Char) : stripL (dropTrailWS l) = stripL l := by
  rw [stripL, stripL, dropWS_dropTrailWS, dropTrailWS_eq, dropTrailWS_eq, dropTrail_idem]

theorem stripL_stripL (l : List Char) : stripL (stripL l) = stripL l := by
  conv_lhs => rw [show stripL l = dropTrailWS (dropWS l) from rfl]
  rw [stripL_dropTrailWS, stripL_dropWS]

/-! ### Character counting -/

theorem countChar_append (c : Char) (a b : List Char) :
    countChar c (a ++ b) = countChar c a + countChar c b := by
  rw [countChar, countChar, countChar, List.filter_append, List.length_append]

theorem countChar_reverse (c : Char) (l : List Char) :
    countChar c l.reverse = countChar c l := by
  rw [countChar, countChar, List.filter_reverse, List.length_reverse]

theorem countChar_dropWhile (c : Char) (p : Char → Bool) (l : List Char)
    (h : p c = false) : countChar c (l.dropWhile p) = countChar c l := by
  conv_rhs => rw [← List.takeWhile_append_dropWhile p l]
  rw [countChar_append]
  have : countChar c (l.takeWhile p) = 0 := by
    rw [countChar, List.length_eq_zero, List.filter_eq_nil_iff]
    intro a ha
    have hp := List.mem_takeWhile_imp ha
    simp only [decide_eq_true_eq]
    intro hac
    rw [hac] at hp
    rw [hp] at h
    cases h
  rw [this, Nat.zero_add]

theorem countChar_dropWS (c : Char) (l : List Char) (h : pyIsSpace c = false) :
    countChar c (dropWS l) = countChar c l :=
  countChar_dropWhile c pyIsSpace l h

theorem countChar_dropTrailWS (c : Char) (l : List Char) (h : pyIsSpace c = false) :
    countChar c (dropTrailWS l) = countChar c l := by
  rw [dropTrailWS, countChar_reverse, countChar_dropWhile c pyIsSpace _ h,
    countChar_reverse]

theorem countChar_stripL (c : Char) (l : List Char) (h : pyIsSpace c = false) :
    countChar c (stripL l) = countChar c l := by
  rw [stripL, countChar_dropTrailWS _ _ h, countChar_dropWS _ _ h]

/-! ### splitChar length -/

theorem splitChar_ne_nil (sep : Char) (l : List Char) : splitChar sep l ≠ [] := by
  induction l with
  | nil => simp [splitChar]
  | cons c t ih =>
    rw [splitChar, List.foldr_cons, ← splitChar]
    rcases h : splitChar sep t with _ | ⟨a, rest⟩
    · exact absurd h ih
    · by_cases hc : c = sep <;> simp [hc]

theorem countChar_cons (sep c : Char) (t : List Char) :
    countChar sep (c :: t) = (if c = sep then 1 else 0) + countChar sep t := by
  by_cases hc : c = sep
  · subst hc
    rw [if_pos rfl, countChar, countChar,
      List.filter_cons_of_pos (by simp), List.length_cons]
    omega
  · rw [if_neg hc, countChar, countChar,
      List.filter_cons_of_neg (by simpa using hc), Nat.zero_add]

theorem splitChar_length (sep : Char) (l : List Char) :
    (splitChar sep l).length = countChar sep l + 1 := by
  induction l with
  | nil => rfl
  | cons c t ih =>
    rw [splitChar, List.foldr_cons, ← splitChar]
    rcases h : splitChar sep t with _ | ⟨a, rest⟩
    · exact absurd h (splitChar_ne_nil sep t)
    · rw [h] at ih
      rw [countChar_cons]
      dsimp only
      by_cases hc : c = sep
      · subst hc
        rw [if_pos rfl, if_pos rfl]
        simp only [List.length_cons] at ih ⊢
        omega
      · rw [if_neg hc, if_neg hc]
        simp only [List.length_cons] at ih ⊢
        omega

theorem fieldLen_eq (s : String) : fieldLen s = countChar ',' s.data + 1 :=
  splitChar_length ',' s.data

/-! ### Key-value line monotonicity -/

theorem kvAfterClass_append (u v : List Char) (h : kvAfterClass u = true) :
    kvAfterClass (u ++ v) = true := by
  induction u with
  | nil => cases h
  | cons c r ih =>
    rw [List.cons_append, kvAfterClass]
    rw [kvAfterClass] at h
    by_cases hc : c = ':'
    · rw [if_pos hc]
    · rw [if_neg hc] at h ⊢
      simp only [Bool.and_eq_true] at h
      rw [h.1, ih h.2]
      rfl

theorem kvStartB_append (u v : List Char) (h : kvStartB u = true) :
    kvStartB (u ++ v) = true := by
  induction u with
  | nil => cases h
  | cons c r ih =>
    rw [List.cons_append, kvStartB]
    rw [kvStartB] at h
    simp only [Bool.or_eq_true, Bool.and_eq_true] at h
    rcases h with ⟨ha, hb⟩ | ⟨ha, hb⟩
    · rw [ha, kvAfterClass_append r v hb]
      rfl
    · rw [ha, ih hb]
      simp

theorem kvStartB_prepend_ws (w : List Char) (hw : ∀ c ∈ w, pyIsSpace c = true)
    (t : List Char) (h : kvStartB t = true) : kvStartB (w ++ t) = true := by
  induction w with
  | nil => exact h
  | cons c r ih =>
    rw [List.cons_append, kvStartB]
    rw [hw c (List.mem_cons_self c r),
      ih (fun x hx => hw x (List.mem_cons_of_mem c hx))]
    simp

theorem contains_colon_of_sub {l₁ l₂ : List Char} (hs : l₁.Sublist l₂)
    (h : l₁.contains ':' = true) : l₂.contains ':' = true :=
  List.elem_iff.mpr (List.Sublist.subset hs (List.elem_iff.mp h))

theorem kvLineB_of_dropWS (x : String)
    (h : kvLineB (⟨dropWS x.data⟩ : String) = true) : kvLineB x = true := by
  rw [kvLineB] at h ⊢
  simp only [Bool.and_eq_true] at h
  have h1 : x.data.contains ':' = true :=
    contains_colon_of_sub (List.dropWhile_sublist pyIsSpace) h.1
  have h2 : kvStartB x.data = true := by
    have hsplit := List.takeWhile_append_dropWhile pyIsSpace x.data
    rw [← hsplit]
    exact kvStartB_prepend_ws _ (fun c hc => List.mem_takeWhile_imp hc) _ h.2
  rw [h1, h2]
  rfl

theorem kvLineB_of_dropTrailWS (x : String)
    (h : kvLineB (⟨dropTrailWS x.data⟩ : String) = true) : kvLineB x = true := by
  rw [kvLineB] at h ⊢
  simp only [Bool.and_eq_true] at h
  have hsplit := dropTrailWS_append_eq x.data
  rw [← hsplit]
  have hsub : (dropTrailWS x.data).Sublist
      (dropTrailWS x.data ++ (x.data.reverse.takeWhile pyIsSpace).reverse) :=
    List.sublist_append_left _ _
  rw [contains_colon_of_sub hsub h.1, kvStartB_append _ _ h.2]
  rfl

theorem kvLineB_of_pyStrip (x : String)
    (h : kvLineB (pyStrip x) = true) : kvLineB x = true := by
  have h1 : kvLineB (⟨dropWS x.data⟩ : String) = true := by
    apply kvLineB_of_dropTrailWS (⟨dropWS x.data⟩ : String)
    exact h
  exact kvLineB_of_dropWS x h1

theorem kvLineB_of_trimVariant (x y : String) (hv : trimVariant x y)
    (h : kvLineB y = true) : kvLineB x = true := by
  rcases hv with rfl | rfl | rfl | rfl
  · exact h
  · exact kvLineB_of_dropWS x h
  · exact kvLineB_of_dropTrailWS x h
  · exact kvLineB_of_pyStrip x h

/-! ### Forall₂ transfer helpers -/

theorem countP_le_of_forall₂ {α : Type} (p : α → Bool) :
    ∀ {l₁ l₂ : List α}, List.Forall₂ (fun x y => p y = true → p x = true) l₁ l₂ →
      l₂.countP p ≤ l₁.countP p := by
  intro l₁ l₂ hf
  induction hf with
  | nil => exact Nat.le_refl 0
  | @cons a b l₁ l₂ hr ht ih =>
    rw [List.countP_cons, List.countP_cons]
    by_cases hy : p b = true
    · rw [if_pos hy, if_pos (hr hy)]
      omega
    · rw [if_neg hy]
      by_cases hx : p a = true
      · rw [if_pos hx]
        omega
      · rw [if_neg hx]
        omega

theorem forall₂_mapLast_trimVariant :
    ∀ xs : List String,
      List.Forall₂ trimVariant xs (mapLast (fun l => (⟨dropTrailWS l.data⟩ : String)) xs)
  | [] => List.Forall₂.nil
  | [_] => List.Forall₂.cons (Or.inr (Or.inr (Or.inl rfl))) List.Forall₂.nil
  | _ :: b :: r =>
    List.Forall₂.cons (Or.inl rfl) (forall₂_mapLast_trimVariant (b :: r))

theorem forall₂_trimVariant_eCore :
    ∀ core : List String, List.Forall₂ trimVariant core (eCore core)
  | [] => List.Forall₂.nil
  | [_] => List.Forall₂.cons (Or.inr (Or.inr (Or.inr rfl))) List.Forall₂.nil
  | _ :: b :: r =>
    List.Forall₂.cons (Or.inr (Or.inl rfl)) (forall₂_mapLast_trimVariant (b :: r))

/-! ### Separator-regex monotonicity -/

theorem dropWhile_append_ne {α : Type} (p : α → Bool) (x y : List α)
    (h : x.dropWhile p ≠ []) : (x ++ y).dropWhile p = x.dropWhile p ++ y := by
  rw [List.dropWhile_append]
  have he : (x.dropWhile p).isEmpty = false := by
    rcases hx : x.dropWhile p with _ | ⟨a, r⟩
    · exact absurd hx h
    · rfl
  rw [he]
  simp

theorem takeWhile_append_ne {α : Type} (p : α → Bool) (x y : List α)
    (h : x.dropWhile p ≠ []) : (x ++ y).takeWhile p = x.takeWhile p := by
  rw [List.takeWhile_append]
  have hlen : (x.takeWhile p).length + (x.dropWhile p).length = x.length := by
    rw [← List.length_append, List.takeWhile_append_dropWhile]
  have hne : (x.dropWhile p).length ≠ 0 := by
    intro h0
    exact h (List.length_eq_zero.mp h0)
  rw [if_neg (by omega)]

theorem dropOpt_append (c : Char) (x y : List Char) (h : x ≠ []) :
    dropOpt c (x ++ y) = dropOpt c x ++ y := by
  rcases x with _ | ⟨a, r⟩
  · exact absurd rfl h
  · rw [List.cons_append, dropOpt, dropOpt]
    by_cases hc : a = c
    · rw [if_pos hc, if_pos hc]
    · rw [if_neg hc, if_neg hc, List.cons_append]

theorem dropOpt_ne_nil_of (c : Char) (x : List Char) (h : dropOpt c x ≠ []) :
    x ≠ [] := by
  intro hx
  rw [hx] at h
  exact h rfl

theorem takeWhile_eq_self_of_dropWhile_nil {α : Type} (p : α → Bool) (x : List α)
    (h : x.dropWhile p = []) : x.takeWhile p = x := by
  have := List.takeWhile_append_dropWhile p x
  rw [h, List.append_nil] at this
  exact this

theorem sepTail_true_iff (t : List Char) :
    sepTail t = true ↔ ∃ r, t = '|' :: r ∧ r ≠ [] := by
  rcases t with _ | ⟨c, r⟩
  · simp [sepTail]
  · rw [sepTail]
    simp only [Bool.and_eq_true, decide_eq_true_eq]
    constructor
    · rintro ⟨hc, hr⟩
      subst hc
      refine ⟨r, rfl, fun hnil => ?_⟩
      rw [hnil] at hr
      cases hr
    · rintro ⟨r', heq, hne⟩
      injection heq with h1 h2
      subst h1
      rw [h2]
      refine ⟨rfl, ?_⟩
      rcases r' with _ | ⟨a, t'⟩
      · exact absurd rfl hne
      · rfl

theorem sepB_append_ws (u w : List Char) (hw : ∀ c ∈ w, pyIsSpace c = true)
    (h : sepB u = true) : sepB (u ++ w) = true := by
  have w1 : w.dropWhile pyIsSpace = [] := List.dropWhile_eq_nil_iff.mpr hw
  have wdash : ∀ c ∈ w, (decide (c = '-') : Bool) = false := by
    intro c hc
    have hcw := hw c hc
    simp only [decide_eq_false_iff_not]
    intro hcd
    rw [hcd] at hcw
    cases hcw
  have w3 : w.dropWhile (fun c => decide (c = '-')) = w := by
    rcases w with _ | ⟨c, r⟩
    · rfl
    · exact dropWhile_of_head_false _ _ _ (wdash c (List.mem_cons_self c r))
  simp only [sepB, Bool.and_eq_true, decide_eq_true_eq] at h
  obtain ⟨hd, hrest⟩ := h
  have ht4 : dropOpt ':' ((dropOpt '|' (u.dropWhile pyIsSpace)).dropWhile pyIsSpace) ≠ [] := by
    intro h0
    rw [h0] at hd
    simp at hd
  have ht3 : (dropOpt '|' (u.dropWhile pyIsSpace)).dropWhile pyIsSpace ≠ [] :=
    dropOpt_ne_nil_of _ _ ht4
  have ht2 : dropOpt '|' (u.dropWhile pyIsSpace) ≠ [] := by
    intro h0
    rw [h0] at ht3
    exact ht3 rfl
  have ht1 : u.dropWhile pyIsSpace ≠ [] := dropOpt_ne_nil_of _ _ ht2
  have e1 : (u ++ w).dropWhile pyIsSpace = u.dropWhile pyIsSpace ++ w :=
    dropWhile_append_ne _ _ _ ht1
  have e2 : dropOpt '|' (u.dropWhile pyIsSpace ++ w) =
      dropOpt '|' (u.dropWhile pyIsSpace) ++ w := dropOpt_append _ _ _ ht1
  have e3 : (dropOpt '|' (u.dropWhile pyIsSpace) ++ w).dropWhile pyIsSpace =
      (dropOpt '|' (u.dropWhile pyIsSpace)).dropWhile pyIsSpace ++ w :=
    dropWhile_append_ne _ _ _ ht3
  have e4 : dropOpt ':' ((dropOpt '|' (u.dropWhile pyIsSpace)).dropWhile pyIsSpace ++ w) =
      dropOpt ':' ((dropOpt '|' (u.dropWhile pyIsSpace)).dropWhile pyIsSpace) ++ w :=
    dropOpt_append _ _ _ ht3
  simp only [sepB, Bool.and_eq_true, decide_eq_true_eq]
  rw [e1, e2, e3, e4]
  set t4 := dropOpt ':' ((dropOpt '|' (u.dropWhile pyIsSpace)).dropWhile pyIsSpace) with ht4def
  by_cases hdash : t4.dropWhile (fun c => decide (c = '-')) = []
  · have htk : t4.takeWhile (fun c => decide (c = '-')) = t4 :=
      takeWhile_eq_self_of_dropWhile_nil _ _ hdash
    have e5t : (t4 ++ w).takeWhile (fun c => decide (c = '-')) = t4 := by
      rw [List.takeWhile_append, if_pos (by rw [htk])]
      have : w.takeWhile (fun c => decide (c = '-')) = [] := by
        rcases w with _ | ⟨c, r⟩
        · rfl
        · rw [List.takeWhile_cons, wdash c (List.mem_cons_self c r)]
          simp
      rw [this, List.append_nil]
    have e5d : (t4 ++ w).dropWhile (fun c => decide (c = '-')) = w := by
      rw [List.dropWhile_append, hdash]
      simp [w3]
    rw [e5t, e5d, w1]
    refine ⟨by rw [htk] at hd; exact hd, ?_⟩
    simp
  · have e5t : (t4 ++ w).takeWhile (fun c => decide (c = '-')) =
        t4.takeWhile (fun c => decide (c = '-')) := takeWhile_append_ne _ _ _ hdash
    have e5d : (t4 ++ w).dropWhile (fun c => decide (c = '-')) =
        t4.dropWhile (fun c => decide (c = '-')) ++ w := dropWhile_append_ne _ _ _ hdash
    rw [e5t, e5d]
    set t5 := t4.dropWhile (fun c => decide (c = '-')) with ht5def
    refine ⟨hd, ?_⟩
    by_cases h6 : t5.dropWhile pyIsSpace = []
    · have : (t5 ++ w).dropWhile pyIsSpace = [] := by
        rw [List.dropWhile_append, h6]
        simp [w1]
      rw [this]
      rfl
    · have e6 : (t5 ++ w).dropWhile pyIsSpace = t5.dropWhile pyIsSpace ++ w :=
        dropWhile_append_ne _ _ _ h6
      rw [e6]
      simp only [Bool.or_eq_true] at hrest
      rcases hrest with hrest | hrest
      · rw [List.isEmpty_iff] at hrest
        exact absurd hrest h6
      · rcases (sepTail_true_iff _).mp hrest with ⟨r, hteq, hrne⟩
        rw [hteq, List.cons_append]
        have hne : r ++ w ≠ [] := by
          intro hnil
          exact hrne (List.append_eq_nil.mp hnil).1
        have : sepTail ('|' :: (r ++ w)) = true :=
          (sepTail_true_iff _).mpr ⟨r ++ w, rfl, hne⟩
        rw [this]
        simp

theorem sepB_dropWS (l : List Char) : sepB (dropWS l) = sepB l := by
  simp only [sepB, dropWS, dropWhile_idem]

theorem sepB_dropTrailWS_mono (l : List Char) (h : sepB (dropTrailWS l) = true) :
    sepB l = true := by
  rw [← dropTrailWS_append_eq l]
  apply sepB_append_ws _ _ _ h
  intro c hc
  exact List.mem_takeWhile_imp (List.mem_reverse.mp hc)

theorem sepB_stripL_mono (l : List Char) (h : sepB (stripL l) = true) :
    sepB l = true := by
  rw [stripL] at h
  have := sepB_dropTrailWS_mono (dropWS l) h
  rwa [sepB_dropWS] at this

theorem sepB_trimVariant (x y : String) (hv : trimVariant x y)
    (h : sepB y.data = true) : sepB x.data = true := by
  rcases hv with rfl | rfl | rfl | rfl
  · exact h
  · rw [show (⟨dropWS x.data⟩ : String).data = dropWS x.data from rfl,
      sepB_dropWS] at h
    exact h
  · exact sepB_dropTrailWS_mono _ h
  · exact sepB_stripL_mono _ h

/-! ### Pointwise invariance under the edge trims -/

theorem commaLine_trimVariant (x y : String) (hv : trimVariant x y) :
    commaLine y = commaLine x ∧ fieldLen y = fieldLen x := by
  have hws : pyIsSpace ',' = false := rfl
  rcases hv with rfl | rfl | rfl | rfl
  · exact ⟨rfl, rfl⟩
  · constructor
    · rw [commaLine, commaLine]
      rw [show (⟨dropWS x.data⟩ : String).data = dropWS x.data from rfl,
        countChar_dropWS _ _ hws]
    · rw [fieldLen_eq, fieldLen_eq,
        show (⟨dropWS x.data⟩ : String).data = dropWS x.data from rfl,
        countChar_dropWS _ _ hws]
  · constructor
    · rw [commaLine, commaLine,
        show (⟨dropTrailWS x.data⟩ : String).data = dropTrailWS x.data from rfl,
        countChar_dropTrailWS _ _ hws]
    · rw [fieldLen_eq, fieldLen_eq,
        show (⟨dropTrailWS x.data⟩ : String).data = dropTrailWS x.data from rfl,
        countChar_dropTrailWS _ _ hws]
  · constructor
    · rw [commaLine, commaLine,
        show (pyStrip x).data = stripL x.data from rfl,
        countChar_stripL _ _ hws]
    · rw [fieldLen_eq, fieldLen_eq,
        show (pyStrip x).data = stripL x.data from rfl,
        countChar_stripL _ _ hws]

theorem pipeStartLine_trimVariant (x y : String) (hv : trimVariant x y) :
    pipeStartLine y = pipeStartLine x ∧ pipeContLine y = pipeContLine x ∧
      isBlankLine y = isBlankLine x := by
  rcases hv with rfl | rfl | rfl | rfl
  · exact ⟨rfl, rfl, rfl⟩
  · rw [pipeStartLine, pipeStartLine, pipeContLine, pipeContLine,
      isBlankLine, isBlankLine,
      show (⟨dropWS x.data⟩ : String).data = dropWS x.data from rfl,
      stripL_dropWS]
    exact ⟨rfl, rfl, rfl⟩
  · rw [pipeStartLine, pipeStartLine, pipeContLine, pipeContLine,
      isBlankLine, isBlankLine,
      show (⟨dropTrailWS x.data⟩ : String).data = dropTrailWS x.data from rfl,
      stripL_dropTrailWS]
    exact ⟨rfl, rfl, rfl⟩
  · rw [pipeStartLine, pipeStartLine, pipeContLine, pipeContLine,
      isBlankLine, isBlankLine,
      show (pyStrip x).data = stripL x.data from rfl,
      stripL_stripL]
    exact ⟨rfl, rfl, rfl⟩

/-! ### Markdown detection as a pair property -/

theorem adjPairs_sub_cons {α : Type} (x : α) (xs : List α) (pr : α × α)
    (h : pr ∈ adjPairs xs) : pr ∈ adjPairs (x :: xs) := by
  rcases xs with _ | ⟨y, r⟩
  · cases h
  · exact List.mem_cons_of_mem _ h

theorem adjPairs_sub_append_left {α : Type} (pre : List α) (xs : List α) (pr : α × α)
    (h : pr ∈ adjPairs xs) : pr ∈ adjPairs (pre ++ xs) := by
  induction pre with
  | nil => exact h
  | cons p rest ih => exact adjPairs_sub_cons _ _ _ ih

theorem adjPairs_sub_append_right {α : Type} (xs suf : List α) (pr : α × α)
    (h : pr ∈ adjPairs xs) : pr ∈ adjPairs (xs ++ suf) := by
  induction xs with
  | nil => cases h
  | cons a r ih =>
    rcases r with _ | ⟨b, t⟩
    · cases h
    · rcases List.mem_cons.mp h with h1 | h1
      · rw [List.cons_append, List.cons_append]
        exact List.mem_cons.mpr (Or.inl h1)
      · rw [List.cons_append]
        exact adjPairs_sub_cons _ _ _ (ih h1)

theorem md_none_iff (ls : List String) :
    extract_markdown_pipe_table ls = none ↔
      ∀ pr ∈ adjPairs ls, ¬(pipeStartLine pr.1 = true ∧ sepB pr.2.data = true) := by
  induction ls with
  | nil => simp [extract_markdown_pipe_table, adjPairs]
  | cons l1 tl ih =>
    rcases tl with _ | ⟨l2, r⟩
    · simp [extract_markdown_pipe_table, adjPairs]
    · rw [extract_markdown_pipe_table]
      by_cases hc : (pipeStartLine l1 && sepB l2.data) = true
      · rw [if_pos hc]
        simp only [Bool.and_eq_true] at hc
        constructor
        · intro h
          cases h
        · intro h
          exact absurd hc (h (l1, l2) (List.mem_cons_self _ _))
      · rw [if_neg hc]
        rw [ih]
        constructor
        · intro h pr hpr
          rcases List.mem_cons.mp hpr with h1 | h1
          · subst h1
            intro hbad
            exact hc (by rw [hbad.1, hbad.2]; rfl)
          · exact h pr h1
        · intro h pr hpr
          exact h pr (adjPairs_sub_cons _ _ _ hpr)

theorem forall₂_mem_right {α β : Type} {R : α → β → Prop} :
    ∀ {l : List α} {l' : List β}, List.Forall₂ R l l' →
      ∀ b ∈ l', ∃ a ∈ l, R a b := by
  intro l l' h
  induction h with
  | nil => intro b hb; cases hb
  | @cons a b t t' hr ht ih =>
    intro x hx
    rcases List.mem_cons.mp hx with h1 | h1
    · exact ⟨a, List.mem_cons_self _ _, h1 ▸ hr⟩
    · rcases ih x h1 with ⟨a', ha', hra'⟩
      exact ⟨a', List.mem_cons_of_mem _ ha', hra'⟩

theorem adjPairs_forall₂ {α β : Type} {R : α → β → Prop} :
    ∀ {l : List α} {l' : List β}, List.Forall₂ R l l' →
      List.Forall₂ (fun p q => R p.1 q.1 ∧ R p.2 q.2) (adjPairs l) (adjPairs l') := by
  intro l l' h
  induction h with
  | nil => exact List.Forall₂.nil
  | @cons a b t t' hr ht ih =>
    cases ht with
    | nil => exact List.Forall₂.nil
    | @cons c d t₂ t₂' hcd ht₂ =>
      exact List.Forall₂.cons ⟨hr, hcd⟩ ih

/-- Generic decomposition around `trimBlankEdges`. -/
theorem dropTrailWhile_append_eq {α : Type} (p : α → Bool) (l : List α) :
    dropTrailWhile p l ++ (l.reverse.takeWhile p).reverse = l := by
  rw [dropTrailWhile, ← List.reverse_append, List.takeWhile_append_dropWhile,
    List.reverse_reverse]

theorem trimBlankEdges_decomp (ls : List String) :
    ∃ pre suf, ls = pre ++ trimBlankEdges ls ++ suf ∧
      (∀ l ∈ pre, isBlankLine l = true) ∧ (∀ l ∈ suf, isBlankLine l = true) := by
  refine ⟨ls.takeWhile isBlankLine,
    ((ls.dropWhile isBlankLine).reverse.takeWhile isBlankLine).reverse, ?_, ?_, ?_⟩
  · rw [trimBlankEdges, List.append_assoc,
      dropTrailWhile_append_eq isBlankLine (ls.dropWhile isBlankLine),
      List.takeWhile_append_dropWhile]
  · intro l hl
    exact List.mem_takeWhile_imp hl
  · intro l hl
    exact List.mem_takeWhile_imp (List.mem_reverse.mp hl)

theorem md_none_edgeTrim (ls : List String)
    (h : extract_markdown_pipe_table ls = none) :
    extract_markdown_pipe_table (edgeTrim ls) = none := by
  rw [md_none_iff] at h ⊢
  have hmid : ∀ pr ∈ adjPairs (trimBlankEdges ls),
      ¬(pipeStartLine pr.1 = true ∧ sepB pr.2.data = true) := by
    obtain ⟨pre, suf, hdec, _, _⟩ := trimBlankEdges_decomp ls
    intro pr hpr
    apply h
    rw [hdec]
    exact adjPairs_sub_append_right _ _ _ (adjPairs_sub_append_left _ _ _ hpr)
  rw [edgeTrim]
  have hf := adjPairs_forall₂ (forall₂_trimVariant_eCore (trimBlankEdges ls))
  intro pr hpr hbad
  obtain ⟨pr₀, hpr₀, hv1, hv2⟩ := forall₂_mem_right hf pr hpr
  apply hmid pr₀ hpr₀
  refine ⟨?_, sepB_trimVariant _ _ hv2 hbad.2⟩
  have he := (pipeStartLine_trimVariant pr₀.1 pr.1 hv1).1
  rw [← he]
  exact hbad.1

/-! ### Key-value count through the edge trim -/

theorem kv_count_edgeTrim (ls : List String) :
    (edgeTrim ls).countP kvLineB ≤ ls.countP kvLineB := by
  have h1 : (edgeTrim ls).countP kvLineB ≤ (trimBlankEdges ls).countP kvLineB := by
    rw [edgeTrim]
    apply countP_le_of_forall₂
    exact List.Forall₂.imp
      (fun {x y} hv h => kvLineB_of_trimVariant x y hv h)
      (forall₂_trimVariant_eCore (trimBlankEdges ls))
  have h2 : (trimBlankEdges ls).countP kvLineB ≤ ls.countP kvLineB := by
    obtain ⟨pre, suf, hdec, _, _⟩ := trimBlankEdges_decomp ls
    conv_rhs => rw [hdec]
    rw [List.countP_append, List.countP_append]
    omega
  omega


/-! ### Comma-block transfer through the edge trim -/

theorem blank_not_comma (l : String) (h : isBlankLine l = true) :
    commaLine l = false := by
  rw [isBlankLine] at h
  rw [decide_eq_true_eq] at h
  have hall : ∀ c ∈ l.data, pyIsSpace c = true := (blankL_iff l.data).mp (by
    rw [blankL]
    rw [decide_eq_true_eq]
    exact h)
  rw [commaLine]
  rw [decide_eq_false_iff_not]
  intro hcount
  have : countChar ',' l.data = 0 := by
    rw [countChar, List.length_eq_zero, List.filter_eq_nil_iff]
    intro c hc
    have := hall c hc
    simp only [decide_eq_true_eq]
    intro hcc
    rw [hcc] at this
    cases this
  omega

theorem forall₂_append {α β : Type} {R : α → β → Prop} :
    ∀ {a b : List α} {a' b' : List β}, List.Forall₂ R a a' → List.Forall₂ R b b' →
      List.Forall₂ R (a ++ b) (a' ++ b') := by
  intro a b a' b' h1 h2
  induction h1 with
  | nil => exact h2
  | cons hr _ ih => exact List.Forall₂.cons hr ih

theorem csvBlocksAux_nonComma (ls : List String)
    (h : ∀ l ∈ ls, commaLine l = false) :
    ∀ (block : List String) (bl : List (List String)),
      csvBlocksAux block bl ls = if 2 ≤ block.length then bl ++ [block] else bl := by
  induction ls with
  | nil => intro block bl; rfl
  | cons l r ih =>
    intro block bl
    rw [csvBlocksAux, h l (List.mem_cons_self l r)]
    simp only [Bool.false_eq_true, if_false]
    rw [ih (fun x hx => h x (List.mem_cons_of_mem l hx))]
    simp

theorem csvBlocksAux_pre (pre rest : List String)
    (h : ∀ l ∈ pre, commaLine l = false) (bl : List (List String)) :
    csvBlocksAux [] bl (pre ++ rest) = csvBlocksAux [] bl rest := by
  induction pre with
  | nil => rfl
  | cons p pr ih =>
    rw [List.cons_append, csvBlocksAux, h p (List.mem_cons_self p pr)]
    simp only [Bool.false_eq_true, if_false, List.length_nil]
    rw [if_neg (by omega)]
    exact ih (fun x hx => h x (List.mem_cons_of_mem p hx))

theorem csvBlocksAux_suf (core suf : List String)
    (h : ∀ l ∈ suf, commaLine l = false) :
    ∀ (block : List String) (bl : List (List String)),
      csvBlocksAux block bl (core ++ suf) = csvBlocksAux block bl core := by
  induction core with
  | nil =>
    intro block bl
    rw [List.nil_append, csvBlocksAux_nonComma suf h]
    rfl
  | cons c r ih =>
    intro block bl
    rw [List.cons_append, csvBlocksAux, csvBlocksAux]
    by_cases hc : commaLine c = true
    · rw [hc]
      simp only [if_true]
      exact ih _ _
    · have hc' : commaLine c = false := by simpa using hc
      rw [hc']
      simp only [Bool.false_eq_true, if_false]
      exact ih _ _

theorem extract_csv_trimBlankEdges (ls : List String) :
    extract_csv_like_block (trimBlankEdges ls) = extract_csv_like_block ls := by
  obtain ⟨pre, suf, hdec, hpre, hsuf⟩ := trimBlankEdges_decomp ls
  rw [extract_csv_like_block, extract_csv_like_block]
  conv_rhs => rw [hdec]
  rw [csvBlocksAux_suf (pre ++ trimBlankEdges ls) suf
    (fun l hl => blank_not_comma l (hsuf l hl))]
  rw [csvBlocksAux_pre pre (trimBlankEdges ls)
    (fun l hl => blank_not_comma l (hpre l hl))]

theorem csvBlocksAux_forall₂ :
    ∀ {ls ls' : List String}, List.Forall₂ Rcsv ls ls' →
    ∀ {block block' : List String}, List.Forall₂ Rcsv block block' →
    ∀ {bl bl' : List (List String)}, List.Forall₂ (List.Forall₂ Rcsv) bl bl' →
      List.Forall₂ (List.Forall₂ Rcsv)
        (csvBlocksAux block bl ls) (csvBlocksAux block' bl' ls') := by
  intro ls ls' h
  induction h with
  | nil =>
    intro block block' hb bl bl' hbl
    rw [csvBlocksAux, csvBlocksAux, hb.length_eq]
    by_cases h2 : 2 ≤ block'.length
    · rw [if_pos h2, if_pos h2]
      exact forall₂_append hbl (List.Forall₂.cons hb List.Forall₂.nil)
    · rw [if_neg h2, if_neg h2]
      exact hbl
  | @cons x y t t' hxy ht ih =>
    intro block block' hb bl bl' hbl
    rw [csvBlocksAux, csvBlocksAux, hxy.1]
    by_cases hc : commaLine x = true
    · rw [hc]
      simp only [if_true]
      exact ih (forall₂_append hb (List.Forall₂.cons hxy List.Forall₂.nil)) hbl
    · have hc' : commaLine x = false := by simpa using hc
      rw [hc']
      simp only [Bool.false_eq_true, if_false]
      rw [hb.length_eq]
      by_cases h2 : 2 ≤ block'.length
      · rw [if_pos h2, if_pos h2]
        exact ih List.Forall₂.nil
          (forall₂_append hbl (List.Forall₂.cons hb List.Forall₂.nil))
      · rw [if_neg h2, if_neg h2]
        exact ih List.Forall₂.nil hbl

theorem firstMax_forall₂ :
    ∀ {bls bls' : List (List String)},
      List.Forall₂ (List.Forall₂ Rcsv) bls bls' →
      ∀ {acc acc' : Option (List String)}, csvOptRel acc acc' →
        csvOptRel (bls.foldl (fun acc b =>
            match acc with
            | none => some b
            | some a => if a.length < b.length then some b else acc) acc)
          (bls'.foldl (fun acc b =>
            match acc with
            | none => some b
            | some a => if a.length < b.length then some b else acc) acc') := by
  intro bls bls' h
  induction h with
  | nil => intro acc acc' hacc; exact hacc
  | @cons b b' t t' hbb ht ih =>
    intro acc acc' hacc
    rw [List.foldl_cons, List.foldl_cons]
    apply ih
    rcases hacc with ⟨h1, h2⟩ | ⟨a, a', h1, h2, hfa⟩
    · rw [h1, h2]
      exact Or.inr ⟨b, b', rfl, rfl, hbb⟩
    · rw [h1, h2]
      simp only
      rw [hfa.length_eq, hbb.length_eq]
      by_cases hlt : a'.length < b'.length
      · rw [if_pos hlt, if_pos hlt]
        exact Or.inr ⟨b, b', rfl, rfl, hbb⟩
      · rw [if_neg hlt, if_neg hlt]
        exact Or.inr ⟨a, a', rfl, rfl, hfa⟩

theorem extract_csv_edgeTrim (ls : List String) :
    csvOptRel (extract_csv_like_block ls) (extract_csv_like_block (edgeTrim ls)) := by
  have hcore : List.Forall₂ Rcsv (trimBlankEdges ls) (edgeTrim ls) := by
    rw [edgeTrim]
    exact List.Forall₂.imp
      (fun x y hv => commaLine_trimVariant x y hv)
      (forall₂_trimVariant_eCore (trimBlankEdges ls))
  rw [← extract_csv_trimBlankEdges ls]
  rw [extract_csv_like_block, extract_csv_like_block]
  exact firstMax_forall₂ (csvBlocksAux_forall₂ hcore List.Forall₂.nil List.Forall₂.nil)
    (Or.inl ⟨rfl, rfl⟩)



/-! ### Joining lines and re-splitting the stripped join -/

theorem slAux_nl_cons (acc : List Char) (c : Char) (rest : List Char) :
    slAux acc ('\n' :: c :: rest) = acc.reverse :: slAux [] (c :: rest) := rfl

theorem slAux_cons_nb (acc : List Char) (c : Char) (rest : List Char)
    (h : isBreakChar c = false) :
    slAux acc (c :: rest) = slAux (c :: acc) rest := by
  have h' : ¬c = '\n' ∧ ¬c = '\r' := by simpa [isBreakChar] using h
  simp [slAux, h'.1, h'.2]

theorem slAux_noBreak (l : List Char) :
    ∀ acc, (∀ c ∈ l, isBreakChar c = false) → slAux acc l = [acc.reverse ++ l] := by
  induction l with
  | nil => intro acc _; simp [slAux]
  | cons c r ih =>
    intro acc h
    rw [slAux_cons_nb acc c r (h c (List.mem_cons_self c r)),
      ih (c :: acc) (fun x hx => h x (List.mem_cons_of_mem c hx))]
    simp

theorem slAux_seg (l : List Char) :
    ∀ acc (c0 : Char) (t : List Char), (∀ c ∈ l, isBreakChar c = false) →
      slAux acc (l ++ '\n' :: c0 :: t) =
        (acc.reverse ++ l) :: slAux [] (c0 :: t) := by
  induction l with
  | nil => intro acc c0 t _; rw [List.nil_append, slAux_nl_cons]; simp
  | cons c r ih =>
    intro acc c0 t h
    rw [List.cons_append, slAux_cons_nb _ c _ (h c (List.mem_cons_self c r)),
      ih (c :: acc) c0 t (fun x hx => h x (List.mem_cons_of_mem c hx))]
    simp

theorem joinNl_cons_cons (a b : List Char) (t : List (List Char)) :
    joinNl (a :: b :: t) = a ++ '\n' :: joinNl (b :: t) := rfl

theorem joinNl_cons_ne (a : List Char) (t : List (List Char)) (h : t ≠ []) :
    joinNl (a :: t) = a ++ '\n' :: joinNl t := by
  cases t with
  | nil => exact absurd rfl h
  | cons b r => rfl

/-- Splitting a newline-join recovers the joined lines, as long as no line
holds a line-break character and the last line is not empty. -/
theorem pySplitlines_joinNl (LS : List (List Char))
    (hnb : ∀ l ∈ LS, ∀ c ∈ l, isBreakChar c = false)
    (hlast : LS.getLast? ≠ some []) :
    pySplitlinesL (joinNl LS) = LS := by
  induction LS with
  | nil => rfl
  | cons l t ih =>
    cases t with
    | nil =>
      have hl : l ≠ [] := by
        intro hc; exact hlast (by rw [hc]; rfl)
      cases hll : l with
      | nil => exact absurd hll hl
      | cons c r =>
        rw [show joinNl [c :: r] = c :: r from rfl, pySplitlinesL]
        · rw [slAux_noBreak (c :: r) []
            (by rw [← hll]; exact hnb l (List.mem_cons_self l []))]
          simp
        · simp
    | cons l2 rest =>
      have hJ : joinNl (l2 :: rest) ≠ [] := by
        cases rest with
        | nil =>
          have : l2 ≠ [] := by
            intro hc
            exact hlast (by rw [hc]; rfl)
          simpa [joinNl] using this
        | cons l3 r3 => simp [joinNl_cons_cons]
      have hnb' : ∀ x ∈ l2 :: rest, ∀ c ∈ x, isBreakChar c = false :=
        fun x hx => hnb x (List.mem_cons_of_mem l hx)
      have hlast' : (l2 :: rest).getLast? ≠ some [] := by
        rwa [List.getLast?_cons_cons] at hlast
      rw [joinNl_cons_cons]
      cases hJc : joinNl (l2 :: rest) with
      | nil => exact absurd hJc hJ
      | cons c0 tJ =>
        rw [pySplitlinesL]
        · rw [slAux_seg l [] c0 tJ (hnb l (List.mem_cons_self l _)),
            List.reverse_nil, List.nil_append,
            show slAux [] (c0 :: tJ) = pySplitlinesL (c0 :: tJ) from rfl,
            ← hJc, ih hnb' hlast']
        · simp

theorem joinNl_append_singleton (xs : List (List Char)) (x : List Char) (h : xs ≠ []) :
    joinNl (xs ++ [x]) = joinNl xs ++ '\n' :: x := by
  induction xs with
  | nil => exact absurd rfl h
  | cons a t ih =>
    cases t with
    | nil => rfl
    | cons b r =>
      rw [show (a :: b :: r) ++ [x] = a :: ((b :: r) ++ [x]) from rfl,
        joinNl_cons_ne _ _ (by simp), ih (by simp), joinNl_cons_cons]
      simp

theorem dropWS_ne_nil_of_not_blank (l : List Char) (h : blankL l = false) :
    dropWS l ≠ [] := by
  intro hc
  have : blankL l = true := by
    rw [blankL, decide_eq_true_eq, stripL, hc]
    rfl
  rw [this] at h
  cases h

theorem dropTrailWS_eq_nil_of_all (l : List Char) (h : ∀ c ∈ l, pyIsSpace c = true) :
    dropTrailWS l = [] := by
  rw [dropTrailWS, List.reverse_eq_nil_iff, List.dropWhile_eq_nil_iff]
  intro c hc
  exact h c (List.mem_reverse.mp hc)

theorem dropTrailWS_ne_nil_of_not_blank (l : List Char) (h : blankL l = false) :
    dropTrailWS l ≠ [] := by
  intro hc
  have : blankL l = true := by
    rw [blankL, decide_eq_true_eq]
    have hall : ∀ c ∈ l, pyIsSpace c = true := by
      intro c hcl
      have h1 : l.reverse.dropWhile pyIsSpace = [] := by
        rw [dropTrailWS, List.reverse_eq_nil_iff] at hc
        exact hc
      rw [List.dropWhile_eq_nil_iff] at h1
      exact h1 c (List.mem_reverse.mpr hcl)
    rw [stripL, dropWS_eq_nil_of_all l hall]
    rfl
  rw [this] at h
  cases h

/-- Leading trim of a newline-join: blank lead lines vanish, the first kept
line loses its leading whitespace. -/
theorem dropWS_joinNl (LS : List (List Char)) :
    dropWS (joinNl LS) = joinNl (mapHead dropWS (LS.dropWhile blankL)) := by
  induction LS with
  | nil => rfl
  | cons l t ih =>
    by_cases hb : blankL l = true
    · have hall : ∀ c ∈ l, pyIsSpace c = true := (blankL_iff l).mp hb
      rw [List.dropWhile_cons_of_pos hb]
      cases t with
      | nil =>
        show dropWS l = joinNl (mapHead dropWS [])
        rw [dropWS_eq_nil_of_all l hall]
        rfl
      | cons l2 r =>
        rw [joinNl_cons_cons, ← ih, dropWS, List.dropWhile_append,
          show List.dropWhile pyIsSpace l = [] from dropWS_eq_nil_of_all l hall]
        simp only [List.isEmpty_nil, if_true]
        rw [List.dropWhile_cons_of_pos (show pyIsSpace '\n' = true from rfl)]
        rfl
    · have hb' : blankL l = false := by simpa using hb
      rw [List.dropWhile_cons_of_neg (by rw [hb']; simp)]
      cases t with
      | nil => rfl
      | cons l2 r =>
        show dropWS (joinNl (l :: l2 :: r)) = joinNl (dropWS l :: l2 :: r)
        rw [joinNl_cons_cons, joinNl_cons_cons, dropWS, List.dropWhile_append]
        have : ¬(l.dropWhile pyIsSpace).isEmpty = true := by
          rw [List.isEmpty_iff]
          exact dropWS_ne_nil_of_not_blank l hb'
        rw [if_neg this]
        rfl

theorem mapLast_append_singleton (f : α → α) (xs : List α) (x : α) :
    mapLast f (xs ++ [x]) = xs ++ [f x] := by
  induction xs with
  | nil => rfl
  | cons a t ih =>
    cases t with
    | nil => rfl
    | cons b r =>
      rw [show (a :: b :: r) ++ [x] = a :: ((b :: r) ++ [x]) from rfl]
      rw [show ((b :: r) ++ [x]) = b :: (r ++ [x]) from rfl]
      rw [mapLast, show b :: (r ++ [x]) = (b :: r) ++ [x] from rfl, ih]
      rfl

theorem dropTrailWhile_append_singleton_pos {α : Type} (p : α → Bool) (xs : List α)
    (x : α) (h : p x = true) :
    dropTrailWhile p (xs ++ [x]) = dropTrailWhile p xs := by
  rw [dropTrailWhile, dropTrailWhile, List.reverse_append, List.reverse_singleton,
    List.singleton_append, List.dropWhile_cons_of_pos h]

theorem dropTrailWhile_append_singleton_neg {α : Type} (p : α → Bool) (xs : List α)
    (x : α) (h : p x = false) :
    dropTrailWhile p (xs ++ [x]) = xs ++ [x] := by
  rw [dropTrailWhile, List.reverse_append, List.reverse_singleton,
    List.singleton_append, List.dropWhile_cons_of_neg (by rw [h]; simp),
    List.reverse_cons, List.reverse_reverse]

theorem dropTrailWS_append_all (a b : List Char) (h : ∀ c ∈ b, pyIsSpace c = true) :
    dropTrailWS (a ++ b) = dropTrailWS a := by
  rw [dropTrailWS, dropTrailWS, List.reverse_append, List.dropWhile_append,
    List.dropWhile_eq_nil_iff.mpr (fun c hc => h c (List.mem_reverse.mp hc))]
  simp

theorem dropTrailWS_append_keep (a b : List Char) (h : dropTrailWS b ≠ []) :
    dropTrailWS (a ++ b) = a ++ dropTrailWS b := by
  have hne : ¬(b.reverse.dropWhile pyIsSpace).isEmpty = true := by
    rw [List.isEmpty_iff]
    intro hc
    exact h (by rw [dropTrailWS, hc]; rfl)
  rw [dropTrailWS, List.reverse_append, List.dropWhile_append, if_neg hne,
    List.reverse_append, List.reverse_reverse, dropTrailWS]

/-- Trailing trim of a newline-join: blank tail lines vanish, the last kept
line loses its trailing whitespace. -/
theorem dropTrailWS_joinNl (LS : List (List Char)) :
    dropTrailWS (joinNl LS) =
      joinNl (mapLast dropTrailWS (dropTrailWhile blankL LS)) := by
  induction LS using List.reverseRecOn with
  | nil => rfl
  | append_singleton xs x ih =>
    by_cases hb : blankL x = true
    · have hall : ∀ c ∈ x, pyIsSpace c = true := (blankL_iff x).mp hb
      rw [dropTrailWhile_append_singleton_pos _ _ _ hb]
      cases hxs : xs with
      | nil =>
        show dropTrailWS (joinNl [x]) = _
        rw [show joinNl [x] = x from rfl, dropTrailWS_eq_nil_of_all x hall]
        rfl
      | cons y ys =>
        rw [← hxs, joinNl_append_singleton xs x (by rw [hxs]; simp), ← ih]
        rw [show joinNl xs ++ '\n' :: x = joinNl xs ++ ('\n' :: x) from rfl]
        exact dropTrailWS_append_all _ _ (by
          intro c hc
          rcases List.mem_cons.mp hc with rfl | hcx
          · rfl
          · exact hall c hcx)
    · have hb' : blankL x = false := by simpa using hb
      rw [dropTrailWhile_append_singleton_neg _ _ _ hb', mapLast_append_singleton]
      cases hxs : xs with
      | nil =>
        show dropTrailWS (joinNl [x]) = joinNl [dropTrailWS x]
        rfl
      | cons y ys =>
        rw [← hxs, joinNl_append_singleton xs x (by rw [hxs]; simp),
          joinNl_append_singleton xs (dropTrailWS x) (by rw [hxs]; simp)]
        rw [show joinNl xs ++ '\n' :: x = (joinNl xs ++ ['\n']) ++ x by simp]
        rw [dropTrailWS_append_keep _ _ (dropTrailWS_ne_nil_of_not_blank x hb')]
        simp

theorem blankL_dropWS (l : List Char) : blankL (dropWS l) = blankL l := by
  rw [blankL, blankL, stripL_dropWS]

/-- Full strip of a newline-join: blank edge lines vanish, the first kept
line loses leading and the last kept line loses trailing whitespace. -/
theorem stripL_joinNl (LS : List (List Char)) :
    stripL (joinNl LS) =
      joinNl (eCoreL (dropTrailWhile blankL (LS.dropWhile blankL))) := by
  rw [stripL, dropWS_joinNl, dropTrailWS_joinNl]
  congr 1
  cases hD : LS.dropWhile blankL with
  | nil => rfl
  | cons a r =>
    have hba : blankL a = false := dropWhile_head_false blankL LS a r hD
    have hb' : blankL (dropWS a) = false := by rw [blankL_dropWS]; exact hba
    show mapLast dropTrailWS (dropTrailWhile blankL (dropWS a :: r)) =
      eCoreL (dropTrailWhile blankL (a :: r))
    rw [dropTrail_cons_of_neg _ _ _ hb', dropTrail_cons_of_neg _ _ _ hba]
    cases T : dropTrailWhile blankL r with
    | nil => rfl
    | cons b rest => rfl

theorem mem_mapLast {α : Type} (f : α → α) :
    ∀ {ls : List α} {y : α}, y ∈ mapLast f ls → ∃ x ∈ ls, y = x ∨ y = f x := by
  intro ls
  induction ls with
  | nil => intro y hy; cases hy
  | cons a t ih =>
    intro y hy
    cases t with
    | nil =>
      rcases List.mem_singleton.mp hy with rfl
      exact ⟨a, List.mem_singleton.mpr rfl, Or.inr rfl⟩
    | cons b r =>
      rcases List.mem_cons.mp hy with rfl | hy'
      · exact ⟨y, List.mem_cons_self _ _, Or.inl rfl⟩
      · obtain ⟨x, hx, hor⟩ := ih hy'
        exact ⟨x, List.mem_cons_of_mem a hx, hor⟩

theorem noBreak_of_mem_dropWS (x : List Char)
    (h : ∀ c ∈ x, isBreakChar c = false) :
    ∀ c ∈ dropWS x, isBreakChar c = false :=
  fun c hc => h c ((List.dropWhile_sublist _).subset hc)

theorem noBreak_of_mem_dropTrailWS (x : List Char)
    (h : ∀ c ∈ x, isBreakChar c = false) :
    ∀ c ∈ dropTrailWS x, isBreakChar c = false := by
  intro c hc
  rw [dropTrailWS, List.mem_reverse] at hc
  exact h c (List.mem_reverse.mp ((List.dropWhile_sublist _).subset hc))

theorem noBreak_of_mem_stripL (x : List Char)
    (h : ∀ c ∈ x, isBreakChar c = false) :
    ∀ c ∈ stripL x, isBreakChar c = false := by
  rw [stripL]
  exact noBreak_of_mem_dropTrailWS _ (noBreak_of_mem_dropWS x h)

theorem noBreak_eCoreL (T : List (List Char))
    (h : ∀ l ∈ T, ∀ c ∈ l, isBreakChar c = false) :
    ∀ l ∈ eCoreL T, ∀ c ∈ l, isBreakChar c = false := by
  cases T with
  | nil => intro l hl; cases hl
  | cons a t =>
    cases t with
    | nil =>
      intro l hl
      rcases List.mem_singleton.mp hl with rfl
      exact noBreak_of_mem_stripL a (h a (List.mem_cons_self _ _))
    | cons b r =>
      intro l hl
      rcases List.mem_cons.mp hl with rfl | hl'
      · exact noBreak_of_mem_dropWS a (h a (List.mem_cons_self _ _))
      · obtain ⟨x, hx, hor⟩ := mem_mapLast dropTrailWS hl'
        have hxnb := h x (List.mem_cons_of_mem a hx)
        rcases hor with rfl | rfl
        · exact hxnb
        · exact noBreak_of_mem_dropTrailWS x hxnb

theorem mapLast_getLast {α : Type} (f : α → α) :
    ∀ (ls : List α), ls ≠ [] → (mapLast f ls).getLast? = ls.getLast?.map f := by
  intro ls
  induction ls with
  | nil => intro h; exact absurd rfl h
  | cons a t ih =>
    intro _
    cases t with
    | nil => rfl
    | cons b r =>
      rw [show mapLast f (a :: b :: r) = a :: mapLast f (b :: r) from rfl]
      cases hM : mapLast f (b :: r) with
      | nil => cases r <;> cases hM
      | cons m ms =>
        rw [List.getLast?_cons_cons, ← hM, ih (by simp), List.getLast?_cons_cons]

theorem dropTrail_getLast_false {α : Type} (p : α → Bool) (l : List α) (x : α)
    (xs : List α) (h : dropTrailWhile p l = x :: xs) :
    ∀ y, (x :: xs).getLast? = some y → p y = false := by
  intro y hy
  rw [← h, dropTrailWhile, List.getLast?_reverse] at hy
  cases hd : List.dropWhile p l.reverse with
  | nil => rw [hd] at hy; cases hy
  | cons a r =>
    rw [hd] at hy
    have : a = y := by
      simpa using hy
    rw [← this]
    exact dropWhile_head_false p l.reverse a r hd

theorem eCoreL_getLast_ne_nil (T : List (List Char))
    (hlast : ∀ y, T.getLast? = some y → blankL y = false) :
    (eCoreL T).getLast? ≠ some [] := by
  cases T with
  | nil => simp [eCoreL]
  | cons a t =>
    cases t with
    | nil =>
      intro hc
      have : stripL a = [] := by simpa [eCoreL] using hc
      have hb := hlast a rfl
      rw [blankL, this] at hb
      simp at hb
    | cons b r =>
      intro hc
      rw [show eCoreL (a :: b :: r) = dropWS a :: mapLast dropTrailWS (b :: r) from rfl]
        at hc
      cases hM : mapLast dropTrailWS (b :: r) with
      | nil => cases r <;> cases hM
      | cons m ms =>
        rw [hM, List.getLast?_cons_cons, ← hM,
          mapLast_getLast dropTrailWS (b :: r) (by simp)] at hc
        cases hz : (b :: r).getLast? with
        | none => rw [hz] at hc; cases hc
        | some z =>
          rw [hz, show Option.map dropTrailWS (some z) = some (dropTrailWS z) from rfl]
            at hc
          have hzb : blankL z = false := by
            apply hlast
            rw [List.getLast?_cons_cons]
            exact hz
          exact dropTrailWS_ne_nil_of_not_blank z hzb (by injection hc)

theorem mem_of_mem_dropTrailWhile {α : Type} (p : α → Bool) {x : α} {l : List α}
    (h : x ∈ dropTrailWhile p l) : x ∈ l := by
  rw [dropTrailWhile, List.mem_reverse] at h
  exact List.mem_reverse.mp ((List.dropWhile_sublist _).subset h)

/-- Re-splitting the stripped join of no-break lines gives the edge-trimmed
lines (character-list level). -/
theorem splitlines_strip_joinNl (LS : List (List Char))
    (hnb : ∀ l ∈ LS, ∀ c ∈ l, isBreakChar c = false) :
    pySplitlinesL (stripL (joinNl LS)) =
      eCoreL (dropTrailWhile blankL (LS.dropWhile blankL)) := by
  rw [stripL_joinNl]
  apply pySplitlines_joinNl
  · apply noBreak_eCoreL
    intro l hl
    exact hnb l ((List.dropWhile_sublist _).subset (mem_of_mem_dropTrailWhile blankL hl))
  · apply eCoreL_getLast_ne_nil
    intro y hy
    cases hT : dropTrailWhile blankL (LS.dropWhile blankL) with
    | nil => rw [hT] at hy; cases hy
    | cons x xs =>
      rw [hT] at hy
      exact dropTrail_getLast_false blankL (LS.dropWhile blankL) x xs hT y hy

/-! ### The csv reader on plain (quote- and break-free) joined lines -/

theorem splitChar_cons_sep (sep : Char) (r : List Char) :
    splitChar sep (sep :: r) = [] :: splitChar sep r := by
  rcases h : splitChar sep r with _ | ⟨a, rest⟩
  · exact absurd h (splitChar_ne_nil sep r)
  · rw [show splitChar sep (sep :: r) =
        (match splitChar sep r with
         | [] => if sep = sep then [[], []] else [[sep]]
         | a :: rest => if sep = sep then [] :: a :: rest else (sep :: a) :: rest)
       from rfl, h]
    simp

theorem splitChar_cons_ne (sep c : Char) (hc : ¬c = sep) (r : List Char)
    (a : List Char) (rest : List (List Char)) (h : splitChar sep r = a :: rest) :
    splitChar sep (c :: r) = (c :: a) :: rest := by
  rw [show splitChar sep (c :: r) =
      (match splitChar sep r with
       | [] => if c = sep then [[], []] else [[c]]
       | a :: rest => if c = sep then [] :: a :: rest else (c :: a) :: rest)
     from rfl, h]
  simp [hc]

theorem lineFields_nil (sep : Char) (sk : Bool) :
    lineFields sep sk [] = [[]] := by
  cases sk <;> rfl

theorem contFields_nil (sep : Char) (sk : Bool) (f : List Char) :
    contFields sep sk f [] = [f] := by
  cases sk <;> simp [contFields, splitChar]

theorem lineFields_cons_space (sep : Char) (hs3 : ¬sep = ' ') (r : List Char) :
    lineFields sep true (' ' :: r) = lineFields sep true r := by
  rcases h : splitChar sep r with _ | ⟨a, rest⟩
  · exact absurd h (splitChar_ne_nil sep r)
  · rw [lineFields, lineFields, if_pos rfl, if_pos rfl, h,
      splitChar_cons_ne sep ' ' (fun hc => hs3 hc.symm) r a rest h,
      List.map_cons, List.map_cons,
      show List.dropWhile (· = ' ') (' ' :: a) = List.dropWhile (· = ' ') a from by
        rw [List.dropWhile_cons_of_pos (by simp)]]

theorem lineFields_cons_sep (sep : Char) (sk : Bool) (r : List Char) :
    lineFields sep sk (sep :: r) = [] :: lineFields sep sk r := by
  rw [lineFields, lineFields, splitChar_cons_sep]
  cases sk <;> simp

theorem lineFields_cons_of (sep c : Char) (sk : Bool) (hc : ¬c = sep)
    (hcs : sk = true → ¬c = ' ') (r : List Char) :
    lineFields sep sk (c :: r) = contFields sep sk [c] r := by
  rcases h : splitChar sep r with _ | ⟨a, rest⟩
  · exact absurd h (splitChar_ne_nil sep r)
  · rw [lineFields, contFields, h, splitChar_cons_ne sep c hc r a rest h]
    cases sk with
    | false => simp
    | true =>
      simp only [if_pos rfl, List.map_cons]
      rw [List.dropWhile_cons_of_neg (by simpa using hcs rfl)]
      rfl

theorem contFields_cons_sep (sep : Char) (sk : Bool) (f r : List Char) :
    contFields sep sk f (sep :: r) = f :: lineFields sep sk r := by
  rw [contFields, splitChar_cons_sep, lineFields]
  rcases h : splitChar sep r with _ | ⟨a, rest⟩
  · exact absurd h (splitChar_ne_nil sep r)
  · simp

theorem contFields_cons_ne (sep c : Char) (sk : Bool) (hc : ¬c = sep)
    (f r : List Char) :
    contFields sep sk f (c :: r) = contFields sep sk (f ++ [c]) r := by
  rcases h : splitChar sep r with _ | ⟨a, rest⟩
  · exact absurd h (splitChar_ne_nil sep r)
  · rw [contFields, contFields, h, splitChar_cons_ne sep c hc r a rest h]
    simp

theorem lineFields_ne_nil (sep : Char) (sk : Bool) (l : List Char) :
    lineFields sep sk l ≠ [] := by
  rw [lineFields]
  rcases h : splitChar sep l with _ | ⟨a, rest⟩
  · exact absurd h (splitChar_ne_nil sep l)
  · cases sk <;> simp [h]

theorem lineFields_length (sep : Char) (sk : Bool) (l : List Char) :
    (lineFields sep sk l).length = (splitChar sep l).length := by
  rw [lineFields]
  cases sk <;> simp

theorem lineFields_data_length (sk : Bool) (s : String) :
    (lineFields ',' sk s.data).length = fieldLen s := by
  rw [lineFields_length, fieldLen]

theorem csvScan_recordStart_cons (sep : Char) (skipInit : Bool)
    (acc : List (List (List Char))) (c : Char) (rest : List Char)
    (hc : ¬c = '\n') :
    csvScan sep skipInit .recordStart [] [] acc (c :: rest) =
      csvScan sep skipInit .fieldStart [] [] acc (c :: rest) := by
  rw [show csvScan sep skipInit .recordStart [] [] acc (c :: rest) =
      (if c = '\n' then csvScan sep skipInit .recordStart [] [] (acc ++ [[]]) rest
       else if c = '"' then csvScan sep skipInit .inQuoted [] [] acc rest
       else if (decide (c = ' ') && skipInit) = true then
         csvScan sep skipInit .fieldStart [] [] acc rest
       else if c = sep then csvScan sep skipInit .fieldStart [] [[]] acc rest
       else csvScan sep skipInit .inField [c] [] acc rest) from rfl,
    show csvScan sep skipInit .fieldStart [] [] acc (c :: rest) =
      (if c = '\n' then csvScan sep skipInit .recordStart [] [] (acc ++ [[[]]]) rest
       else if c = '"' then csvScan sep skipInit .inQuoted [] [] acc rest
       else if (decide (c = ' ') && skipInit) = true then
         csvScan sep skipInit .fieldStart [] [] acc rest
       else if c = sep then csvScan sep skipInit .fieldStart [] [[]] acc rest
       else csvScan sep skipInit .inField [c] [] acc rest) from rfl,
    if_neg hc, if_neg hc]

/-- Scanning one plain line up to a newline: the record gains the line's
fields; from a field start the whole line is split (`lineFields`), from
inside a field the first piece continues the open field (`contFields`). -/
theorem csvScan_line_nl (sep : Char) (skipInit : Bool) (hs3 : ¬sep = ' ') :
    ∀ l : List Char, (∀ c ∈ l, ¬c = '\n' ∧ ¬c = '"') →
      (∀ rec acc t,
        csvScan sep skipInit .fieldStart [] rec acc (l ++ '\n' :: t) =
          csvScan sep skipInit .recordStart [] []
            (acc ++ [rec ++ lineFields sep skipInit l]) t) ∧
      (∀ f rec acc t,
        csvScan sep skipInit .inField f rec acc (l ++ '\n' :: t) =
          csvScan sep skipInit .recordStart [] []
            (acc ++ [rec ++ contFields sep skipInit f l]) t) := by
  intro l
  induction l with
  | nil =>
    intro _
    constructor
    · intro rec acc t
      rw [List.nil_append, lineFields_nil,
        show csvScan sep skipInit .fieldStart [] rec acc ('\n' :: t) =
          csvScan sep skipInit .recordStart [] [] (acc ++ [rec ++ [[]]]) t from rfl]
    · intro f rec acc t
      rw [List.nil_append, contFields_nil,
        show csvScan sep skipInit .inField f rec acc ('\n' :: t) =
          csvScan sep skipInit .recordStart [] [] (acc ++ [rec ++ [f]]) t from rfl]
  | cons c r ih =>
    intro hl
    obtain ⟨hc1, hc2⟩ := hl c (List.mem_cons_self c r)
    have ihr := ih (fun x hx => hl x (List.mem_cons_of_mem c hx))
    constructor
    · intro rec acc t
      rw [List.cons_append,
        show csvScan sep skipInit .fieldStart [] rec acc
            (c :: (r ++ '\n' :: t)) =
          (if c = '\n' then csvScan sep skipInit .recordStart [] []
              (acc ++ [rec ++ [[]]]) (r ++ '\n' :: t)
           else if c = '"' then csvScan sep skipInit .inQuoted [] rec acc
              (r ++ '\n' :: t)
           else if (decide (c = ' ') && skipInit) = true then
             csvScan sep skipInit .fieldStart [] rec acc (r ++ '\n' :: t)
           else if c = sep then csvScan sep skipInit .fieldStart []
              (rec ++ [[]]) acc (r ++ '\n' :: t)
           else csvScan sep skipInit .inField [c] rec acc (r ++ '\n' :: t))
          from rfl,
        if_neg hc1, if_neg hc2]
      by_cases hsp : (decide (c = ' ') && skipInit) = true
      · rw [if_pos hsp]
        rw [Bool.and_eq_true] at hsp
        obtain ⟨hcsp, hsk⟩ := hsp
        have hcsp' : c = ' ' := of_decide_eq_true hcsp
        subst hcsp'
        subst hsk
        rw [ihr.1 rec acc t, lineFields_cons_space sep hs3 r]
      · rw [if_neg hsp]
        by_cases hcs : c = sep
        · subst hcs
          rw [if_pos rfl, ihr.1 (rec ++ [[]]) acc t, lineFields_cons_sep]
          simp [List.append_assoc]
        · rw [if_neg hcs, ihr.2 [c] rec acc t,
            lineFields_cons_of sep c skipInit hcs (by
              intro hskt hcc
              exact hsp (by rw [hcc, hskt]; rfl)) r]
    · intro f rec acc t
      rw [List.cons_append,
        show csvScan sep skipInit .inField f rec acc (c :: (r ++ '\n' :: t)) =
          (if c = '\n' then csvScan sep skipInit .recordStart [] []
              (acc ++ [rec ++ [f]]) (r ++ '\n' :: t)
           else if c = sep then csvScan sep skipInit .fieldStart []
              (rec ++ [f]) acc (r ++ '\n' :: t)
           else csvScan sep skipInit .inField (f ++ [c]) rec acc
              (r ++ '\n' :: t)) from rfl,
        if_neg hc1]
      by_cases hcs : c = sep
      · subst hcs
        rw [if_pos rfl, ihr.1 (rec ++ [f]) acc t, contFields_cons_sep]
        simp [List.append_assoc]
      · rw [if_neg hcs, ihr.2 (f ++ [c]) rec acc t,
          contFields_cons_ne sep c skipInit hcs f r]

/-- Scanning one plain final line (no trailing newline): as in
`csvScan_line_nl`, the scan ends emitting the record. -/
theorem csvScan_line_eof (sep : Char) (skipInit : Bool) (hs3 : ¬sep = ' ') :
    ∀ l : List Char, (∀ c ∈ l, ¬c = '\n' ∧ ¬c = '"') →
      (∀ rec acc,
        csvScan sep skipInit .fieldStart [] rec acc l =
          acc ++ [rec ++ lineFields sep skipInit l]) ∧
      (∀ f rec acc,
        csvScan sep skipInit .inField f rec acc l =
          acc ++ [rec ++ contFields sep skipInit f l]) := by
  intro l
  induction l with
  | nil =>
    intro _
    constructor
    · intro rec acc
      rw [lineFields_nil]
      rfl
    · intro f rec acc
      rw [contFields_nil]
      rfl
  | cons c r ih =>
    intro hl
    obtain ⟨hc1, hc2⟩ := hl c (List.mem_cons_self c r)
    have ihr := ih (fun x hx => hl x (List.mem_cons_of_mem c hx))
    constructor
    · intro rec acc
      rw [show csvScan sep skipInit .fieldStart [] rec acc (c :: r) =
          (if c = '\n' then csvScan sep skipInit .recordStart [] []
              (acc ++ [rec ++ [[]]]) r
           else if c = '"' then csvScan sep skipInit .inQuoted [] rec acc r
           else if (decide (c = ' ') && skipInit) = true then
             csvScan sep skipInit .fieldStart [] rec acc r
           else if c = sep then csvScan sep skipInit .fieldStart []
              (rec ++ [[]]) acc r
           else csvScan sep skipInit .inField [c] rec acc r) from rfl,
        if_neg hc1, if_neg hc2]
      by_cases hsp : (decide (c = ' ') && skipInit) = true
      · rw [if_pos hsp]
        rw [Bool.and_eq_true] at hsp
        obtain ⟨hcsp, hsk⟩ := hsp
        have hcsp' : c = ' ' := of_decide_eq_true hcsp
        subst hcsp'
        subst hsk
        rw [ihr.1 rec acc, lineFields_cons_space sep hs3 r]
      · rw [if_neg hsp]
        by_cases hcs : c = sep
        · subst hcs
          rw [if_pos rfl, ihr.1 (rec ++ [[]]) acc, lineFields_cons_sep]
          simp [List.append_assoc]
        · rw [if_neg hcs, ihr.2 [c] rec acc,
            lineFields_cons_of sep c skipInit hcs (by
              intro hskt hcc
              exact hsp (by rw [hcc, hskt]; rfl)) r]
    · intro f rec acc
      rw [show csvScan sep skipInit .inField f rec acc (c :: r) =
          (if c = '\n' then csvScan sep skipInit .recordStart [] []
              (acc ++ [rec ++ [f]]) r
           else if c = sep then csvScan sep skipInit .fieldStart []
              (rec ++ [f]) acc r
           else csvScan sep skipInit .inField (f ++ [c]) rec acc r) from rfl,
        if_neg hc1]
      by_cases hcs : c = sep
      · subst hcs
        rw [if_pos rfl, ihr.1 (rec ++ [f]) acc, contFields_cons_sep]
        simp [List.append_assoc]
      · rw [if_neg hcs, ihr.2 (f ++ [c]) rec acc,
          contFields_cons_ne sep c skipInit hcs f r]

/-- The csv reader of a newline-join of plain non-empty lines sees exactly
one record per line, the line's fields. -/
theorem csvScan_join (sep : Char) (skipInit : Bool) (hs3 : ¬sep = ' ') :
    ∀ (block : List (List Char)), block ≠ [] →
      (∀ l ∈ block, l ≠ [] ∧ ∀ c ∈ l, ¬c = '\n' ∧ ¬c = '"') →
      ∀ acc, csvScan sep skipInit .recordStart [] [] acc (joinNl block) =
        acc ++ block.map (lineFields sep skipInit) := by
  intro block
  induction block with
  | nil => intro h; exact absurd rfl h
  | cons b rest ih =>
    intro _ hl acc
    obtain ⟨hbne, hbc⟩ := hl b (List.mem_cons_self _ _)
    obtain ⟨c, r, rfl⟩ : ∃ c r, b = c :: r := by
      cases b with
      | nil => exact absurd rfl hbne
      | cons c r => exact ⟨c, r, rfl⟩
    cases rest with
    | nil =>
      rw [show joinNl [c :: r] = c :: r from rfl,
        csvScan_recordStart_cons sep skipInit acc c r
          (hbc c (List.mem_cons_self c r)).1,
        (csvScan_line_eof sep skipInit hs3 (c :: r) hbc).1 [] acc]
      rfl
    | cons b2 r2 =>
      rw [joinNl_cons_ne (c :: r) (b2 :: r2) (by simp), List.cons_append,
        csvScan_recordStart_cons sep skipInit acc c
          (r ++ '\n' :: joinNl (b2 :: r2)) (hbc c (List.mem_cons_self c r)).1,
        ← List.cons_append,
        (csvScan_line_nl sep skipInit hs3 (c :: r) hbc).1 [] acc
          (joinNl (b2 :: r2)),
        ih (by simp) (fun x hx => hl x (List.mem_cons_of_mem _ hx))
          (acc ++ [[] ++ lineFields sep skipInit (c :: r)])]
      simp [List.append_assoc]

/-- The records `pd.read_csv` sees of a joined block of plain non-empty
lines: one per line, the line's fields, none of them blank. -/
theorem csv_records_of_block (sep : Char) (skipInit : Bool) (hs3 : ¬sep = ' ')
    (b : List String) (hb : b ≠ [])
    (hl : ∀ l ∈ b, l.data ≠ [] ∧ ∀ c ∈ l.data, ¬c = '\n' ∧ ¬c = '"') :
    (csvScan sep skipInit .recordStart [] [] [] (joinNl (b.map String.data))).filter
      (fun r => !r.isEmpty) =
      b.map (fun s => lineFields sep skipInit s.data) := by
  rw [csvScan_join sep skipInit hs3 (b.map String.data) (by simpa using hb)
      (by
        intro l hl'
        obtain ⟨s, hs, rfl⟩ := List.mem_map.mp hl'
        exact hl s hs) [],
    List.nil_append, List.map_map,
    List.filter_eq_self.mpr (by
      intro r hr
      obtain ⟨s, hs, rfl⟩ := List.mem_map.mp hr
      simpa [List.isEmpty_iff] using lineFields_ne_nil sep skipInit s.data)]
  rfl

theorem any_wide_forall₂ (sk : Bool) (expected : Nat) :
    ∀ {rest rest' : List String}, List.Forall₂ Rcsv rest rest' →
      ((rest.map (fun s => lineFields ',' sk s.data)).any
        (fun r => decide (expected < r.length))) =
      ((rest'.map (fun s => lineFields ',' sk s.data)).any
        (fun r => decide (expected < r.length))) := by
  intro rest rest' h
  induction h with
  | nil => rfl
  | @cons x y t t' hxy ht ih =>
    rw [List.map_cons, List.map_cons, List.any_cons, List.any_cons, ih,
      lineFields_data_length, lineFields_data_length, hxy.2]

theorem isOk_ite (c₁ c₂ : Bool) (e₁ e₂ : String) (d₁ d₂ : DataFrame)
    (h : c₁ = c₂) :
    (if c₁ = true then (Except.error e₁ : Except String DataFrame)
      else Except.ok d₁).isOk =
    (if c₂ = true then (Except.error e₂ : Except String DataFrame)
      else Except.ok d₂).isOk := by
  subst h
  cases c₁ <;> rfl

/-- Success of the comma read of a joined block of plain lines depends only
on the per-line field counts. -/
theorem pdReadCsv_isOk_transfer (sk : Bool) :
    ∀ {b b' : List String}, List.Forall₂ Rcsv b b' →
      (∀ l ∈ b, l.data ≠ [] ∧ ∀ c ∈ l.data, ¬c = '\n' ∧ ¬c = '"') →
      (∀ l ∈ b', l.data ≠ [] ∧ ∀ c ∈ l.data, ¬c = '\n' ∧ ¬c = '"') →
      (pdReadCsv ',' sk (joinNl (b.map String.data))).isOk =
      (pdReadCsv ',' sk (joinNl (b'.map String.data))).isOk := by
  intro b b' h hp hp'
  cases h with
  | nil => rfl
  | @cons x y t t' hxy ht =>
    have hrec := csv_records_of_block ',' sk (by decide) (x :: t) (by simp) hp
    have hrec' := csv_records_of_block ',' sk (by decide) (y :: t') (by simp) hp'
    have hlx : (lineFields ',' sk y.data).length =
        (lineFields ',' sk x.data).length := by
      rw [lineFields_data_length, lineFields_data_length, hxy.2]
    cases ht with
    | nil =>
      rw [pdReadCsv, pdReadCsv, hrec, hrec']
      rfl
    | @cons u v tu tv huv htuv =>
      have hlu : (lineFields ',' sk v.data).length =
          (lineFields ',' sk u.data).length := by
        rw [lineFields_data_length, lineFields_data_length, huv.2]
      rw [pdReadCsv, pdReadCsv, hrec, hrec']
      simp only [List.map_cons]
      apply isOk_ite
      rw [List.any_cons, List.any_cons]
      simp only [hlu, hlx]
      congr 1
      exact any_wide_forall₂ sk _ htuv

/-! ### String-level bridges for the re-split equation -/

theorem blankL_data (s : String) : blankL s.data = isBlankLine s := rfl

theorem dropWhile_map_data (ls : List String) :
    (ls.map String.data).dropWhile blankL =
      (ls.dropWhile isBlankLine).map String.data := by
  induction ls with
  | nil => rfl
  | cons a t ih =>
    by_cases hb : isBlankLine a = true
    · rw [List.map_cons, List.dropWhile_cons_of_pos (show blankL a.data = true from hb),
        List.dropWhile_cons_of_pos hb, ih]
    · have hb' : isBlankLine a = false := by simpa using hb
      rw [List.map_cons, List.dropWhile_cons_of_neg (by rw [blankL_data, hb']; simp),
        List.dropWhile_cons_of_neg (by rw [hb']; simp), List.map_cons]

theorem dropTrailWhile_map_data (ls : List String) :
    dropTrailWhile blankL (ls.map String.data) =
      (dropTrailWhile isBlankLine ls).map String.data := by
  rw [dropTrailWhile, dropTrailWhile, ← List.map_reverse, dropWhile_map_data,
    ← List.map_reverse]

theorem mapLast_map_data :
    ∀ ls : List String, mapLast dropTrailWS (ls.map String.data) =
      (mapLast (fun l => (⟨dropTrailWS l.data⟩ : String)) ls).map String.data := by
  intro ls
  induction ls with
  | nil => rfl
  | cons a t ih =>
    cases t with
    | nil => rfl
    | cons b r =>
      rw [List.map_cons,
        show mapLast dropTrailWS (a.data :: (b :: r).map String.data) =
          a.data :: mapLast dropTrailWS ((b :: r).map String.data) from rfl, ih]
      rfl

theorem eCoreL_map_data (ls : List String) :
    eCoreL (ls.map String.data) = (eCore ls).map String.data := by
  cases ls with
  | nil => rfl
  | cons a t =>
    cases t with
    | nil => rfl
    | cons b r =>
      rw [show eCoreL ((a :: b :: r).map String.data) =
          dropWS a.data :: mapLast dropTrailWS ((b :: r).map String.data) from rfl,
        mapLast_map_data (b :: r)]
      rfl

theorem map_mk_map_data (ls : List String) :
    (ls.map String.data).map (fun l => (⟨l⟩ : String)) = ls := by
  induction ls with
  | nil => rfl
  | cons a t ih => rw [List.map_cons, List.map_cons, ih]

/-- Re-splitting the raw cell text gives exactly the edge-trimmed section
lines. -/
theorem pySplitlines_cell (lines : List String)
    (hnb : ∀ l ∈ lines, NoBreakLine l = true) :
    pySplitlines ⟨stripL (joinNl (lines.map String.data))⟩ = edgeTrim lines := by
  have hnbc : ∀ l ∈ lines.map String.data, ∀ c ∈ l, isBreakChar c = false := by
    intro l hl c hc
    obtain ⟨s, hs, rfl⟩ := List.mem_map.mp hl
    have hs' := hnb s hs
    rw [NoBreakLine, List.all_eq_true] at hs'
    have := hs' c hc
    simpa using this
  rw [pySplitlines,
    show (⟨stripL (joinNl (lines.map String.data))⟩ : String).data =
      stripL (joinNl (lines.map String.data)) from rfl,
    splitlines_strip_joinNl _ hnbc, dropWhile_map_data, dropTrailWhile_map_data,
    show dropTrailWhile isBlankLine (lines.dropWhile isBlankLine) =
      trimBlankEdges lines from rfl,
    eCoreL_map_data, map_mk_map_data]
  rfl

/-- The cell text of the edge-trimmed lines is the original cell text. -/
theorem refeed_text_eq (lines : List String) :
    stripL (joinNl ((edgeTrim lines).map String.data)) =
      stripL (joinNl (lines.map String.data)) := by
  have hbr : (edgeTrim lines).map String.data =
      eCoreL (dropTrailWhile blankL ((lines.map String.data).dropWhile blankL)) := by
    rw [dropWhile_map_data, dropTrailWhile_map_data, eCoreL_map_data]
    rfl
  rw [hbr, ← stripL_joinNl, stripL_stripL]

theorem edgeTrim_ne_nil_of_text (lines : List String)
    (h : stripL (joinNl (lines.map String.data)) ≠ []) :
    edgeTrim lines ≠ [] := by
  intro hc
  apply h
  rw [stripL_joinNl, dropWhile_map_data, dropTrailWhile_map_data,
    show dropTrailWhile isBlankLine (lines.dropWhile isBlankLine) =
      trimBlankEdges lines from rfl, eCoreL_map_data,
    show eCore (trimBlankEdges lines) = edgeTrim lines from rfl, hc]
  rfl

/-! ### Inversion of the raw single-cell fallback -/

theorem kv_none_iff (ls : List String) :
    extract_key_value_block ls = none ↔ ls.countP kvLineB < 2 := by
  rw [extract_key_value_block]
  by_cases h : 2 ≤ (ls.filter kvLineB).length
  · rw [if_pos h]
    constructor
    · intro hc; exact Option.noConfusion hc
    · intro hc
      rw [← List.countP_eq_length_filter] at h
      omega
  · rw [if_neg h]
    constructor
    · intro _
      rw [← List.countP_eq_length_filter] at h
      omega
    · intro _; rfl

theorem md_block_shape :
    ∀ (ls block : List String), extract_markdown_pipe_table ls = some block →
      ∃ l1 l2 rest, block = l1 :: l2 :: rest := by
  intro ls
  induction ls with
  | nil => intro block h; cases h
  | cons l1 t ih =>
    intro block h
    cases t with
    | nil => cases h
    | cons l2 r =>
      rw [extract_markdown_pipe_table] at h
      by_cases hc : (pipeStartLine l1 && sepB l2.data) = true
      · rw [if_pos hc] at h
        injection h with h'
        exact ⟨l1, l2, r.takeWhile pipeContLine, h'.symm⟩
      · rw [if_neg hc] at h
        exact ih block h

theorem paraStage_raw_inversion (lines : List String) (df : DataFrame)
    (h : paraStage lines = .ok (some df, "raw_single")) :
    ¬(1 < (parasOf (stripL (joinNl (lines.map String.data)))).length) ∧
    df = ⟨["FullContent"], [[some ⟨stripL (joinNl (lines.map String.data))⟩]]⟩ := by
  rw [paraStage] at h
  by_cases hp : 1 < (parasOf (stripL (joinNl (lines.map String.data)))).length
  · rw [if_pos hp] at h
    injection h with h'
    injection h' with h1 h2
    exact absurd h2 (by decide)
  · rw [if_neg hp] at h
    injection h with h'
    injection h' with h1 h2
    refine ⟨hp, ?_⟩
    injection h1 with h3
    exact h3.symm

theorem kvStage_raw_inversion (lines : List String) (df : DataFrame)
    (h : kvStage lines = .ok (some df, "raw_single")) :
    extract_key_value_block lines = none ∧
    paraStage lines = .ok (some df, "raw_single") := by
  rw [kvStage] at h
  cases hk : extract_key_value_block lines with
  | some kvl =>
    simp only [hk] at h
    injection h with h'
    injection h' with h1 h2
    exact absurd h2 (by decide)
  | none =>
    simp only [hk] at h
    exact ⟨rfl, h⟩

theorem csvStage_raw_inversion (lines : List String) (df : DataFrame)
    (h : csvStage lines = .ok (some df, "raw_single")) :
    (∀ b, extract_csv_like_block lines = some b →
      (pdReadCsv ',' false (joinNl (b.map String.data))).isOk = false ∧
      (pdReadCsv ',' true (joinNl (b.map String.data))).isOk = false) ∧
    kvStage lines = .ok (some df, "raw_single") := by
  rw [csvStage] at h
  cases hc : extract_csv_like_block lines with
  | none =>
    simp only [hc] at h
    exact ⟨fun b hb => Option.noConfusion hb, h⟩
  | some b =>
    simp only [hc] at h
    cases hr1 : pdReadCsv ',' false (joinNl (b.map String.data)) with
    | ok dfx =>
      simp only [hr1] at h
      injection h with h'
      injection h' with h1 h2
      exact absurd h2 (by decide)
    | error e1 =>
      simp only [hr1] at h
      cases hr2 : pdReadCsv ',' true (joinNl (b.map String.data)) with
      | ok dfx =>
        simp only [hr2] at h
        injection h with h'
        injection h' with h1 h2
        exact absurd h2 (by decide)
      | error e2 =>
        simp only [hr2] at h
        refine ⟨?_, h⟩
        intro b' hb'
        injection hb' with hbb
        rw [← hbb, hr1, hr2]
        exact ⟨rfl, rfl⟩

/-- What must hold of a section when `parse_table_from_section` lands in the
raw single-cell fallback. -/
theorem parse_raw_single_inversion (lines : List String) (df : DataFrame)
    (h : parse_table_from_section lines = .ok (some df, "raw_single")) :
    extract_markdown_pipe_table lines = none ∧
    (∀ b, extract_csv_like_block lines = some b →
      (pdReadCsv ',' false (joinNl (b.map String.data))).isOk = false ∧
      (pdReadCsv ',' true (joinNl (b.map String.data))).isOk = false) ∧
    extract_key_value_block lines = none ∧
    ¬(1 < (parasOf (stripL (joinNl (lines.map String.data)))).length) ∧
    df = ⟨["FullContent"], [[some ⟨stripL (joinNl (lines.map String.data))⟩]]⟩ := by
  rw [parse_table_from_section] at h
  by_cases hne : lines.isEmpty = true
  · rw [if_pos hne] at h
    injection h with h'
    injection h' with h1 h2
    exact Option.noConfusion h1
  · rw [if_neg hne] at h
    cases hmd : extract_markdown_pipe_table lines with
    | some block =>
      exfalso
      simp only [hmd] at h
      obtain ⟨l1, l2, rest, rfl⟩ := md_block_shape lines _ hmd
      simp only [List.map_cons] at h
      cases hrd : pdReadCsv '|' true
          (joinNl (l1.data :: l2.data :: rest.map String.data)) with
      | ok dfx =>
        simp only [hrd] at h
        injection h with h'
        injection h' with h1 h2
        exact absurd h2 (by decide)
      | error e =>
        simp only [hrd] at h
        cases hmm : mdManualCore (pipeCells l1) (pipeCells l2)
            (rest.map pipeCells) with
        | ok p =>
          simp only [hmm] at h
          injection h with h'
          have hm := mdManualCore_method (pipeCells l1) (pipeCells l2)
            (rest.map pipeCells) p.1 p.2 (by rw [hmm])
          rw [h'] at hm
          exact absurd (show ("raw_single" : String) = "markdown_pipe_manual" from hm)
            (by decide)
        | error e2 =>
          simp only [hmm] at h
          exact Except.noConfusion h
    | none =>
      simp only [hmd] at h
      obtain ⟨hcsv, h2⟩ := csvStage_raw_inversion lines df h
      obtain ⟨hkv, h3⟩ := kvStage_raw_inversion lines df h2
      obtain ⟨hp, hdf⟩ := paraStage_raw_inversion lines df h3
      exact ⟨rfl, hcsv, hkv, hp, hdf⟩

/-- The converse: those conditions force the raw single-cell fallback. -/
theorem parse_raw_single_forward (ls : List String)
    (hne : ls ≠ [])
    (hmd : extract_markdown_pipe_table ls = none)
    (hcsv : ∀ b, extract_csv_like_block ls = some b →
      (pdReadCsv ',' false (joinNl (b.map String.data))).isOk = false ∧
      (pdReadCsv ',' true (joinNl (b.map String.data))).isOk = false)
    (hkv : extract_key_value_block ls = none)
    (hpara : ¬(1 < (parasOf (stripL (joinNl (ls.map String.data)))).length)) :
    parse_table_from_section ls =
      .ok (some ⟨["FullContent"],
        [[some ⟨stripL (joinNl (ls.map String.data))⟩]]⟩, "raw_single") := by
  have hne' : ¬ls.isEmpty = true := by
    rw [List.isEmpty_iff]
    exact hne
  have hkvp : kvStage ls = .ok (some ⟨["FullContent"],
      [[some ⟨stripL (joinNl (ls.map String.data))⟩]]⟩, "raw_single") := by
    rw [kvStage]
    simp only [hkv]
    rw [paraStage, if_neg hpara]
  rw [parse_table_from_section, if_neg hne']
  simp only [hmd]
  rw [csvStage]
  cases hc : extract_csv_like_block ls with
  | none => exact hkvp
  | some b =>
    obtain ⟨h1, h2⟩ := hcsv b hc
    cases hr1 : pdReadCsv ',' false (joinNl (b.map String.data)) with
    | ok dfx =>
      rw [hr1] at h1
      exact Bool.noConfusion h1
    | error e1 =>
      cases hr2 : pdReadCsv ',' true (joinNl (b.map String.data)) with
      | ok dfx =>
        rw [hr2] at h2
        exact Bool.noConfusion h2
      | error e2 =>
        simp only [hr1, hr2]
        exact hkvp

/-! ### Structure of the comma blocks and plain sections -/

theorem commaLine_ne_nil (l : String) (h : commaLine l = true) : l.data ≠ [] := by
  intro hc
  rw [commaLine, hc] at h
  simp [countChar] at h

theorem csvBlocksAux_prop (lines : List String) :
    ∀ (ls block : List String) (blocks : List (List String)),
      (∀ l ∈ block, commaLine l = true ∧ l ∈ lines) →
      (∀ bl ∈ blocks, 2 ≤ bl.length ∧ ∀ l ∈ bl, commaLine l = true ∧ l ∈ lines) →
      (∀ l ∈ ls, l ∈ lines) →
      ∀ bl ∈ csvBlocksAux block blocks ls,
        2 ≤ bl.length ∧ ∀ l ∈ bl, commaLine l = true ∧ l ∈ lines := by
  intro ls
  induction ls with
  | nil =>
    intro block blocks hb hbs _ bl hbl
    rw [csvBlocksAux] at hbl
    by_cases h2 : 2 ≤ block.length
    · rw [if_pos h2] at hbl
      rcases List.mem_append.mp hbl with hm | hm
      · exact hbs bl hm
      · rcases List.mem_singleton.mp hm with rfl
        exact ⟨h2, hb⟩
    · rw [if_neg h2] at hbl
      exact hbs bl hbl
  | cons x r ih =>
    intro block blocks hb hbs hls bl hbl
    rw [csvBlocksAux] at hbl
    by_cases hx : commaLine x = true
    · rw [if_pos hx] at hbl
      refine ih (block ++ [x]) blocks ?_ hbs
        (fun l hl => hls l (List.mem_cons_of_mem x hl)) bl hbl
      intro l hl
      rcases List.mem_append.mp hl with hm | hm
      · exact hb l hm
      · rcases List.mem_singleton.mp hm with rfl
        exact ⟨hx, hls l (List.mem_cons_self _ _)⟩
    · rw [if_neg hx] at hbl
      by_cases h2 : 2 ≤ block.length
      · rw [if_pos h2] at hbl
        refine ih [] (blocks ++ [block]) (by intro l hl; cases hl) ?_
          (fun l hl => hls l (List.mem_cons_of_mem x hl)) bl hbl
        intro bl2 hbl2
        rcases List.mem_append.mp hbl2 with hm | hm
        · exact hbs bl2 hm
        · rcases List.mem_singleton.mp hm with rfl
          exact ⟨h2, hb⟩
      · rw [if_neg h2] at hbl
        exact ih [] blocks (by intro l hl; cases hl) hbs
          (fun l hl => hls l (List.mem_cons_of_mem x hl)) bl hbl

theorem firstMaxBlock_mem :
    ∀ (bls : List (List String)) (acc : Option (List String)) (b : List String),
      bls.foldl (fun acc b =>
        match acc with
        | none => some b
        | some a => if a.length < b.length then some b else acc) acc = some b →
      acc = some b ∨ b ∈ bls := by
  intro bls
  induction bls with
  | nil => intro acc b h; exact Or.inl h
  | cons x r ih =>
    intro acc b h
    rw [List.foldl_cons] at h
    rcases ih _ b h with h2 | h2
    · rcases acc with _ | a
      · have h3 : some x = some b := h2
        injection h3 with hx
        exact Or.inr (by rw [← hx]; exact List.mem_cons_self x r)
      · have h3 : (if a.length < x.length then some x else some a) = some b := h2
        by_cases hl : a.length < x.length
        · rw [if_pos hl] at h3
          injection h3 with hx
          exact Or.inr (by rw [← hx]; exact List.mem_cons_self x r)
        · rw [if_neg hl] at h3
          exact Or.inl h3
    · exact Or.inr (List.mem_cons_of_mem x h2)

/-- A returned comma block has at least two lines, all comma-holding lines
of the section. -/
theorem extract_csv_block_prop (lines b : List String)
    (h : extract_csv_like_block lines = some b) :
    2 ≤ b.length ∧ ∀ l ∈ b, commaLine l = true ∧ l ∈ lines := by
  rw [extract_csv_like_block, firstMaxBlock] at h
  rcases firstMaxBlock_mem _ _ _ h with h2 | h2
  · exact Option.noConfusion h2
  · exact csvBlocksAux_prop lines lines [] [] (by intro l hl; cases hl)
      (by intro bl hbl; cases hbl) (fun l hl => hl) b h2

theorem mem_of_trimVariant (x y : String) (hv : trimVariant x y) :
    ∀ c ∈ y.data, c ∈ x.data := by
  rcases hv with rfl | rfl | rfl | rfl
  · exact fun c hc => hc
  · exact fun c hc => (List.dropWhile_sublist _).subset hc
  · intro c hc
    rw [show ((⟨dropTrailWS x.data⟩ : String)).data = dropTrailWS x.data from rfl,
      dropTrailWS, List.mem_reverse] at hc
    exact List.mem_reverse.mp ((List.dropWhile_sublist _).subset hc)
  · intro c hc
    rw [show (pyStrip x).data = stripL x.data from rfl, stripL] at hc
    have h1 : c ∈ dropWS x.data := by
      rw [dropTrailWS, List.mem_reverse] at hc
      exact List.mem_reverse.mp ((List.dropWhile_sublist _).subset hc)
    exact (List.dropWhile_sublist _).subset h1

/-- Every character of an edge-trimmed line occurs in some original line. -/
theorem mem_edgeTrim_chars (lines : List String) (l : String)
    (hl : l ∈ edgeTrim lines) : ∃ x ∈ lines, ∀ c ∈ l.data, c ∈ x.data := by
  rw [edgeTrim] at hl
  obtain ⟨x, hx, hv⟩ :=
    forall₂_mem_right (forall₂_trimVariant_eCore (trimBlankEdges lines)) l hl
  refine ⟨x, ?_, mem_of_trimVariant x l hv⟩
  have h1 := mem_of_mem_dropTrailWhile isBlankLine
    (show x ∈ dropTrailWhile isBlankLine (lines.dropWhile isBlankLine) from hx)
  exact (List.dropWhile_sublist _).subset h1

theorem plain_of_section (lines : List String)
    (hnb : ∀ l ∈ lines, NoBreakLine l = true)
    (hq : ∀ l ∈ lines, ∀ c ∈ l.data, ¬c = '"')
    (x : String) (hx : x ∈ lines) :
    ∀ c ∈ x.data, ¬c = '\n' ∧ ¬c = '"' := by
  intro c hc
  refine ⟨?_, hq x hx c hc⟩
  have h1 := hnb x hx
  rw [NoBreakLine, List.all_eq_true] at h1
  have h2 := h1 c hc
  intro hcc
  rw [hcc] at h2
  exact absurd h2 (by decide)

/-- C5 counterexample: a blank section takes the raw fallback with an empty
cell, but re-feeding that cell's text yields the explicit "empty" outcome
(its `splitlines` is the empty line list), not the raw fallback again. -/
theorem raw_fallback_counterexample :
    parse_table_from_section [" "] =
      .ok (some ⟨["FullContent"], [[some ""]]⟩, "raw_single") ∧
    pySplitlines "" = [] ∧
    parse_table_from_section [] = .ok (none, "empty") :=
  ⟨rfl, rfl, rfl⟩

/-- C5 (amended): when `parse_table_from_section` lands in the raw
single-cell fallback on a section of lines free of line-break and quote
characters (a leading quote can survive the strip at a field start and
make the re-fed comma read succeed where the original failed, so quoted
sections are excluded), the table is a single `FullContent` cell holding
the stripped joined text;
splitting that cell's text into lines and re-parsing returns the very same
raw single-cell table when the cell is non-empty, and the explicit "empty"
outcome when the cell is empty (the original unconditional idempotence
claim fails exactly on blank sections, whose cell re-feeds as no lines at
all). -/
theorem raw_fallback_refeed (lines : List String) (df : DataFrame)
    (hnb : ∀ l ∈ lines, NoBreakLine l = true)
    (hq : ∀ l ∈ lines, ∀ c ∈ l.data, ¬c = '"')
    (h : parse_table_from_section lines = .ok (some df, "raw_single")) :
    ∃ cell : String, df = ⟨["FullContent"], [[some cell]]⟩ ∧
      (cell = "" →
        parse_table_from_section (pySplitlines cell) = .ok (none, "empty")) ∧
      (cell ≠ "" →
        parse_table_from_section (pySplitlines cell) =
          .ok (some df, "raw_single")) := by
  obtain ⟨hmd, hcsv, hkv, hpara, hdf⟩ := parse_raw_single_inversion lines df h
  refine ⟨⟨stripL (joinNl (lines.map String.data))⟩, hdf, ?_, ?_⟩
  · intro hcell
    rw [hcell]
    rfl
  · intro hcell
    have htext : stripL (joinNl (lines.map String.data)) ≠ [] := by
      intro hc
      apply hcell
      rw [hc]
    have hlines' : pySplitlines ⟨stripL (joinNl (lines.map String.data))⟩ =
        edgeTrim lines := pySplitlines_cell lines hnb
    have hcsv' : ∀ b, extract_csv_like_block (edgeTrim lines) = some b →
        (pdReadCsv ',' false (joinNl (b.map String.data))).isOk = false ∧
        (pdReadCsv ',' true (joinNl (b.map String.data))).isOk = false := by
      intro b' hb'
      rcases extract_csv_edgeTrim lines with ⟨h1, h2⟩ | ⟨b0, b0', hb0, hb0', hfa⟩
      · rw [h2] at hb'; cases hb'
      · rw [hb0'] at hb'
        injection hb' with hbb
        obtain ⟨hf1, hf2⟩ := hcsv b0 hb0
        subst hbb
        have hpb : ∀ l ∈ b0, l.data ≠ [] ∧ ∀ c ∈ l.data, ¬c = '\n' ∧ ¬c = '"' := by
          intro l hl
          obtain ⟨hcom, hmem⟩ := (extract_csv_block_prop lines b0 hb0).2 l hl
          exact ⟨commaLine_ne_nil l hcom, plain_of_section lines hnb hq l hmem⟩
        have hpb' : ∀ l ∈ b0', l.data ≠ [] ∧ ∀ c ∈ l.data, ¬c = '\n' ∧ ¬c = '"' := by
          intro l hl
          obtain ⟨hcom, hmem⟩ :=
            (extract_csv_block_prop (edgeTrim lines) b0' hb0').2 l hl
          obtain ⟨x, hx, hsub⟩ := mem_edgeTrim_chars lines l hmem
          refine ⟨commaLine_ne_nil l hcom, ?_⟩
          intro c hc
          exact plain_of_section lines hnb hq x hx c (hsub c hc)
        exact ⟨by rw [← pdReadCsv_isOk_transfer false hfa hpb hpb']; exact hf1,
          by rw [← pdReadCsv_isOk_transfer true hfa hpb hpb']; exact hf2⟩
    have hkv' : extract_key_value_block (edgeTrim lines) = none := by
      rw [kv_none_iff] at hkv ⊢
      exact Nat.lt_of_le_of_lt (kv_count_edgeTrim lines) hkv
    have hpara' :
        ¬(1 < (parasOf (stripL (joinNl ((edgeTrim lines).map String.data)))).length) := by
      rw [refeed_text_eq lines]
      exact hpara
    have hfw := parse_raw_single_forward (edgeTrim lines)
      (edgeTrim_ne_nil_of_text lines htext) (md_none_edgeTrim lines hmd)
      hcsv' hkv' hpara'
    rw [refeed_text_eq lines] at hfw
    rw [hlines', hdf]
    exact hfw

/-- C5 witness: the amended idempotence at a concrete one-line section. -/
theorem raw_fallback_refeed_witness :
    (∀ l ∈ ["hello world"], NoBreakLine l = true) ∧
    (∀ l ∈ ["hello world"], ∀ c ∈ l.data, ¬c = '"') ∧
    parse_table_from_section ["hello world"] =
      .ok (some ⟨["FullContent"], [[some "hello world"]]⟩, "raw_single") ∧
    ∃ cell : String,
      (⟨["FullContent"], [[some "hello world"]]⟩ : DataFrame) =
        ⟨["FullContent"], [[some cell]]⟩ ∧
      (cell = "" →
        parse_table_from_section (pySplitlines cell) = .ok (none, "empty")) ∧
      (cell ≠ "" →
        parse_table_from_section (pySplitlines cell) =
          .ok (some ⟨["FullContent"], [[some "hello world"]]⟩, "raw_single")) :=
  ⟨by decide, by decide, rfl,
    raw_fallback_refeed ["hello world"] ⟨["FullContent"], [[some "hello world"]]⟩
      (by decide) (by decide) rfl⟩

/-- C10 witness: the fallback at a concrete raw text with no header. -/
theorem main_fallback_truncates_witness :
    find_full_content_section "plain text" = none ∧
    (script1_main true "plain text" =
      .fallbackRaw ⟨["FullContent_Raw"],
        [[some ⟨("plain text" : String).data.take 100000⟩]]⟩ ∧
    (("plain text" : String).data.take 100000).length ≤ 100000 ∧
    (("plain text" : String).data.length ≤ 100000 →
      (⟨("plain text" : String).data.take 100000⟩ : String) = "plain text")) :=
  ⟨rfl, main_fallback_truncates "plain text" rfl⟩

end OCR
